import Mathlib

/-!
Verification development for the document-automation repository
(`app.py` and the backup scripts).  Python strings are modelled as
lists of characters; `str.replace`, `in`, `str.strip`, whitespace
collapsing, and the python-docx document tree are embedded as
executable Lean definitions, mirrored from the source.
-/

namespace AdminAuto

/-! ### Python string primitives on lists of characters -/

abbrev Txt := List Char

/-- Python's substring test `p in s`. -/
def containsB (p : Txt) : Txt → Bool
  | [] => p.isEmpty
  | c :: rest => p.isPrefixOf (c :: rest) || containsB p rest

/-- Fuelled worker for `str.replace`: leftmost, non-overlapping
occurrences of `p` are replaced by `r`.  The fuel is the length of the
remaining input, so the recursion is structural and kernel-reducible. -/
def replFuel (p r : Txt) : Nat → Txt → Txt
  | _, [] => []
  | 0, s => s
  | fuel+1, c :: rest =>
    if p.isPrefixOf (c :: rest) && !p.isEmpty then
      r ++ replFuel p r fuel ((c :: rest).drop p.length)
    else c :: replFuel p r fuel rest

/-- Python's `s.replace(p, r)` (for non-empty patterns, the only use in
this code base). -/
def replaceAll (p r s : Txt) : Txt := replFuel p r s.length s

/-- The whitespace class of `str.strip` / the regex `\s` (ASCII part). -/
def isWS (c : Char) : Bool :=
  c = ' ' || c = '\t' || c = '\n' || c = '\r' || c = '\x0b' || c = '\x0c'

/-- Remove trailing whitespace. -/
def rstripWS : Txt → Txt
  | [] => []
  | c :: rest =>
    let r := rstripWS rest
    if r.isEmpty && isWS c then [] else c :: r

/-- Python's `str.strip()`. -/
def stripWS (l : Txt) : Txt := rstripWS (l.dropWhile isWS)

/-- The regex substitution `\s+` -> single space: every maximal
whitespace run collapses to one `' '`. -/
def collapseWS : Txt → Txt
  | [] => []
  | [c] => if isWS c then [' '] else [c]
  | c :: d :: rest =>
    if isWS c && isWS d then collapseWS (d :: rest)
    else (if isWS c then ' ' else c) :: collapseWS (d :: rest)

/-- The grouping-key normalization of `generate_documents`:
`.str.strip()` followed by `.str.replace(r'\s+', ' ', regex=True)`. -/
def normString (s : String) : String := ⟨collapseWS (stripWS s.data)⟩

/-- Python's `str.strip()` on `String`. -/
def stripStr (s : String) : String := ⟨stripWS s.data⟩

/-- ASCII lower-casing of one character (`str.lower()` on the values
this code compares, which are ASCII). -/
def lowerChar (c : Char) : Char :=
  if 'A' ≤ c ∧ c ≤ 'Z' then Char.ofNat (c.toNat + 32) else c

/-- Python's `str.lower()` on `String` (ASCII range). -/
def lowerStr (s : String) : String := ⟨s.data.map lowerChar⟩

/-- Fuelled splitter into maximal whitespace-free words (Python's
`s.split()` with no argument). -/
def tokensF : Nat → Txt → List Txt
  | _, [] => []
  | 0, _ => []
  | fuel+1, c :: rest =>
    if isWS c then tokensF fuel rest
    else (c :: rest.takeWhile (fun x => !isWS x)) :: tokensF fuel (rest.dropWhile (fun x => !isWS x))

/-- The whitespace-delimited words of a character list. -/
def wsTokens (l : Txt) : List Txt := tokensF l.length l

/-- Join words with single spaces (the canonical normalized form). -/
def joinWords : List Txt → Txt
  | [] => []
  | [w] => w
  | w :: w2 :: ws => w ++ ' ' :: joinWords (w2 :: ws)

/-! ### python-docx document model

A paragraph is a list of runs (text spans); a table cell holds
paragraphs; headers, footers and floating containers contribute bare
text nodes reachable only through the raw XML tree (`xpath`). -/

structure Para where
  runs : List Txt
deriving DecidableEq

/-- `paragraph.text`: concatenation of the run texts. -/
def paraText (pa : Para) : Txt := pa.runs.flatten

/-- The test `run.text and placeholder in run.text` of the source. -/
def runHasPh (p t : Txt) : Bool := !t.isEmpty && containsB p t

/-- First loop of `replace_placeholder_in_paragraph`: replace inside the
first run that wholly contains the placeholder, leave the rest alone. -/
def replaceFirstRun (p r : Txt) : List Txt → List Txt
  | [] => []
  | t :: ts => if runHasPh p t then replaceAll p r t :: ts else t :: replaceFirstRun p r ts

/-- Second loop of `replace_placeholder_in_paragraph`: write the rewritten
full text into the first run and empty the remaining runs. -/
def blankAfterFirst (newText : Txt) : List Txt → List Txt
  | [] => []
  | _ :: ts => newText :: ts.map (fun _ => [])

/-- `replace_placeholder_in_paragraph(para, placeholder, replacement)`
from `app.py`: reconstruct full text; return `False` when absent; if a
single run wholly contains the placeholder replace inside it and stop;
otherwise rewrite the concatenation into the first run, blanking the
others. -/
def replace_placeholder_in_paragraph (p r : Txt) (pa : Para) : Para × Bool :=
  if !(containsB p (paraText pa)) then (pa, false)
  else if pa.runs.any (runHasPh p) then (⟨replaceFirstRun p r pa.runs⟩, true)
  else (⟨blankAfterFirst (replaceAll p r (paraText pa)) pa.runs⟩, true)

/-- Per-node action of `xpath_replace`: a `w:t` node containing the
placeholder gets `node.text.replace(placeholder, replacement)`. -/
def xpathNode (p r t : Txt) : Txt :=
  if !t.isEmpty && containsB p t then replaceAll p r t else t

/-- `xpath_replace(element, placeholder, replacement)` over the element's
text nodes: rewrite each node and count the nodes that contained the
placeholder. -/
def xpath_replace (p r : Txt) (nodes : List Txt) : List Txt × Nat :=
  (nodes.map (xpathNode p r), nodes.countP (fun t => !t.isEmpty && containsB p t))

/-- The paragraph step of `global_replace`: the `placeholder in para.text`
gate followed by `replace_placeholder_in_paragraph`; the boolean records
whether the counter was incremented. -/
def gatePara (p r : Txt) (pa : Para) : Para × Bool :=
  if containsB p (paraText pa) then replace_placeholder_in_paragraph p r pa else (pa, false)

/-- Effect of the body-wide `xpath_replace` pass on one paragraph's runs. -/
def paraX (p r : Txt) (pa : Para) : Para := ⟨pa.runs.map (xpathNode p r)⟩

/-- Composite effect of `global_replace` on one body or table paragraph:
the paragraph pass followed by the body `xpath_replace` pass. -/
def processPara (p r : Txt) (pa : Para) : Para := paraX p r (gatePara p r pa).1

structure DCell where
  paras : List Para
deriving DecidableEq

structure DRow where
  cells : List DCell
deriving DecidableEq

structure DTable where
  rows : List DRow
deriving DecidableEq

/-- One header or footer part (its `w:t` text nodes). -/
structure HF where
  nodes : List Txt
deriving DecidableEq

structure DSection where
  headers : List HF
  footers : List HF
deriving DecidableEq

/-- A document: body paragraphs, tables, floating-container text nodes
(reachable only via the body `xpath` scan), and sections with their
header/footer variants. -/
structure Doc where
  paragraphs : List Para
  tables : List DTable
  floats : List Txt
  sections : List DSection
deriving DecidableEq

/-- Count-and-transform over a list, for the gated paragraph passes. -/
def mapCount {α : Type} (f : α → α × Bool) : List α → List α × Nat
  | [] => ([], 0)
  | a :: as =>
    let x := f a
    let y := mapCount f as
    (x.1 :: y.1, (if x.2 then 1 else 0) + y.2)

def gateCell (p r : Txt) (cl : DCell) : DCell × Nat :=
  let x := mapCount (gatePara p r) cl.paras
  (⟨x.1⟩, x.2)

def gateRow (p r : Txt) (rw : DRow) : DRow × Nat :=
  let xs := rw.cells.map (gateCell p r)
  (⟨xs.map Prod.fst⟩, (xs.map Prod.snd).sum)

def gateTable (p r : Txt) (tb : DTable) : DTable × Nat :=
  let xs := tb.rows.map (gateRow p r)
  (⟨xs.map Prod.fst⟩, (xs.map Prod.snd).sum)

def cellX (p r : Txt) (cl : DCell) : DCell := ⟨cl.paras.map (paraX p r)⟩

def rowX (p r : Txt) (rw : DRow) : DRow := ⟨rw.cells.map (cellX p r)⟩

def tableX (p r : Txt) (tb : DTable) : DTable := ⟨tb.rows.map (rowX p r)⟩

def cellNodes (cl : DCell) : List Txt := cl.paras.flatMap Para.runs

def rowNodes (rw : DRow) : List Txt := rw.cells.flatMap cellNodes

def tableNodes (tb : DTable) : List Txt := tb.rows.flatMap rowNodes

def hfX (p r : Txt) (h : HF) : HF × Nat :=
  let x := xpath_replace p r h.nodes
  (⟨x.1⟩, x.2)

def sectionX (p r : Txt) (sec : DSection) : DSection × Nat :=
  let hs := sec.headers.map (hfX p r)
  let fs := sec.footers.map (hfX p r)
  (⟨hs.map Prod.fst, fs.map Prod.fst⟩, (hs.map Prod.snd).sum + (fs.map Prod.snd).sum)

/-- `global_replace(doc, placeholder, replacement)` from `app.py`:
paragraph pass over the body, paragraph pass over every table cell,
`xpath_replace` over the whole body tree (which revisits the body and
table runs and also reaches the floating-container nodes), then
`xpath_replace` over every header and footer of every section.  Returns
the transformed document and the replacement count. -/
def global_replace (p r : Txt) (d : Doc) : Doc × Nat :=
  let bodyG := mapCount (gatePara p r) d.paragraphs
  let tablesG := d.tables.map (gateTable p r)
  let bodyTexts := bodyG.1.flatMap Para.runs ++ (tablesG.map Prod.fst).flatMap tableNodes ++ d.floats
  let c3 := bodyTexts.countP (fun t => !t.isEmpty && containsB p t)
  let secs := d.sections.map (sectionX p r)
  (⟨bodyG.1.map (paraX p r),
    (tablesG.map Prod.fst).map (tableX p r),
    d.floats.map (xpathNode p r),
    secs.map Prod.fst⟩,
   bodyG.2 + (tablesG.map Prod.snd).sum + c3 + (secs.map Prod.snd).sum)

/-- Every text node of a document: body runs, table runs, floating
nodes, header and footer nodes. -/
def docNodes (d : Doc) : List Txt :=
  d.paragraphs.flatMap Para.runs ++ d.tables.flatMap tableNodes ++ d.floats
    ++ d.sections.flatMap (fun sec => sec.headers.flatMap HF.nodes ++ sec.footers.flatMap HF.nodes)

/-- The literal placeholder `{{DOC_TITLE}}`. -/
def docTitlePh : Txt := "\x7b\x7bDOC_TITLE\x7d\x7d".toList

/-- The replacement text used in the substitution property. -/
def xRep : Txt := "X".toList

/-! ### Records, grouping and titles (`generate_documents`) -/

/-- A source row: column name to cell value; `none` models a pandas
missing value (NaN). -/
structure Rec where
  fields : List (String × Option String)
deriving DecidableEq

/-- `str(row.get(col, ''))`: a present NaN renders as the text `nan`. -/
def rawField (r : Rec) (c : String) : String :=
  match r.fields.lookup c with
  | some (some v) => v
  | some none => "nan"
  | none => ""

/-- The normalization step
`df[ring] = df[ring].fillna('').astype(str).str.strip()` followed by the
whitespace collapse, applied to one record's grouping-key cell. -/
def setRing (c : String) (r : Rec) : Rec :=
  ⟨r.fields.map (fun kv => if kv.1 = c then (kv.1, some (normString (kv.2.getD ""))) else kv)⟩

/-- The value a record contributes to `df.groupby`: its (already
normalized) grouping-key cell, with missing data as empty string. -/
def ringVal (c : String) (r : Rec) : String :=
  match r.fields.lookup c with
  | some (some v) => v
  | _ => ""

/-- Lexicographic comparison of character lists (codepoint order, as
pandas sorts string group keys). -/
def lexLe : Txt → Txt → Bool
  | [], _ => true
  | _ :: _, [] => false
  | a :: as, b :: bs => if a = b then lexLe as bs else decide (a < b)

def insertKey (k : String) : List String → List String
  | [] => [k]
  | x :: xs => if lexLe k.data x.data then k :: x :: xs else x :: insertKey k xs

/-- Insertion sort of the distinct group keys. -/
def sortKeys (ks : List String) : List String := ks.foldr insertKey []

/-- `df.groupby(ring_col)` after the in-place normalization of the
grouping column: groups are keyed by the normalized value, iterated in
ascending key order, each group preserving the original row order. -/
def group_records (c : String) (rows : List Rec) : List (String × List Rec) :=
  let rows2 := rows.map (setRing c)
  let keys := sortKeys ((rows2.map (ringVal c)).dedup)
  keys.map (fun k => (k, rows2.filter (fun r => ringVal c r == k)))

/-- Title derivation of `generate_documents`:
`raw_title = group.iloc[0].get(title_col, "Doc - {key}")` and
`doc_title = str(raw_title) if pd.notna(raw_title) else "Doc - {key}"`. -/
def derivedTitle (r : Rec) (titleCol key : String) : String :=
  match r.fields.lookup titleCol with
  | some (some v) => v
  | some none => "Doc - " ++ key
  | none => "Doc - " ++ key

/-- Title of a whole group (taken from its first record). -/
def groupTitle (titleCol : String) (g : String × List Rec) : String :=
  match g.2.head? with
  | some r => derivedTitle r titleCol g.1
  | none => "Doc - " ++ g.1

/-- The characters removed by `sanitize_filename`. -/
def badFsChars : List Char := ['\\', '/', '*', '?', ':', '"', '<', '>', '|']

/-- `sanitize_filename`: delete every filesystem-unsafe character. -/
def sanitize_filename (s : String) : String :=
  ⟨s.data.filter (fun c => !(badFsChars.contains c))⟩

/-! ### Table materialization -/

/-- A Word table for materialization purposes: the column count of its
grid (what `add_row` uses) and its rows as lists of cell texts. -/
structure WTable where
  colCount : Nat
  rows : List (List String)
deriving DecidableEq

/-- `" ".join(cell.text for cell in table.rows[0].cells)`. -/
def headerRowText (t : WTable) : String := String.intercalate " " (t.rows.headD [])

/-- Target-table search: first table with at least one row whose header
row text contains the scope keyword. -/
def findTargetTable (keyword : String) (tables : List WTable) : Option WTable :=
  tables.find? (fun t => !t.rows.isEmpty && containsB keyword.data (headerRowText t).data)

/-- The `nan` guard of the fill loop: `if val.lower() == 'nan': val = ''`. -/
def cleanCellVal (v : String) : String := if lowerStr v = "nan" then "" else v

/-- Write consecutive values into a cell list starting at an index
(`List.set` past the end is a no-op, like the source's bound check). -/
def setVals (cells : List String) (start : Nat) : List String → List String
  | [] => cells
  | v :: vs => setVals (cells.set start v) (start + 1) vs

/-- One appended data row: a fresh `add_row` gives `colCount` empty
cells; when the table is wider than the column mapping, cell 0 receives
the 1-based ordinal and the data shifts right by one. -/
def fillRow (cols : List String) (colCount : Nat) (ordinal : Nat) (r : Rec) : List String :=
  let cells0 := List.replicate colCount ""
  if colCount > cols.length then
    setVals (cells0.set 0 (toString ordinal)) 1 (cols.map (fun c => cleanCellVal (rawField r c)))
  else
    setVals cells0 0 (cols.map (fun c => cleanCellVal (rawField r c)))

/-- Table materialization: delete rows `len-1 .. 1` (the header row 0
survives), then append one filled row per record of the group. -/
def materializeTable (cols : List String) (recs : List Rec) (t : WTable) : WTable :=
  ⟨t.colCount, t.rows.take 1 ++ recs.enum.map (fun x => fillRow cols t.colCount (x.1 + 1) x.2)⟩

/-! ### The generation pipeline (schema validation and per-group output) -/

/-- The scope configuration fields the pipeline reads. -/
structure ScopeCfg where
  columns_mapping : List String
  ring_col : String
  title_col : String
  table_keyword : String
deriving DecidableEq

/-- `missing = [c for c in columns_mapping + [ring_col, title_col] if c not in df.columns]`. -/
def missingCols (cfg : ScopeCfg) (headers : List String) : List String :=
  (cfg.columns_mapping ++ [cfg.ring_col, cfg.title_col]).filter (fun c => !headers.contains c)

/-- Outcome of a run: the archive (when one is produced), the generated
documents (file name and materialized table, if the target table was
found), the reported missing columns on schema failure, and the count. -/
structure GenResult where
  archive : Option String
  files : List (String × Option WTable)
  errorMissing : Option (List String)
  count : Nat
deriving DecidableEq

/-- The document-generation driver of `app.py`, restricted to the data
path the claims are about: validate the schema (missing columns abort
before any output, and the missing list is reported), then group the
rows, derive one title per group, materialize the target table per
group, and collect everything into an archive.  The timestamp in the
archive name is abstracted away. -/
def generate_documents (cfg : ScopeCfg) (headers : List String) (rows : List Rec)
    (tables : List WTable) : GenResult :=
  let missing := missingCols cfg headers
  if missing.isEmpty then
    let gs := group_records cfg.ring_col rows
    let files := gs.map (fun g =>
      (sanitize_filename (groupTitle cfg.title_col g) ++ ".docx",
       (findTargetTable cfg.table_keyword tables).map (materializeTable cfg.columns_mapping g.2)))
    ⟨some "Hasil.zip", files, none, files.length⟩
  else ⟨none, [], some missing, 0⟩

/-! ### Topology-image insertion -/

/-- A paragraph for the image pass: its text and its embedded-picture
count (`para.clear()` plus `add_picture` turns it into `⟨"", 1⟩`). -/
structure IPara where
  text : String
  pics : Nat
deriving DecidableEq

/-- The literal placeholder `{{TOPOLOGY_IMAGE}}`. -/
def topoImagePh : String := "\x7b\x7bTOPOLOGY_IMAGE\x7d\x7d"

/-- `for para in paras: if ph in para.text: clear; add_picture; break`. -/
def insertFirstPara : List IPara → List IPara × Bool
  | [] => ([], false)
  | pa :: ps =>
    if containsB topoImagePh.data pa.text.data then (⟨"", 1⟩ :: ps, true)
    else
      let x := insertFirstPara ps
      (pa :: x.1, x.2)

/-- The cell loop of the table branch.  As in the source, there is no
`if image_inserted: break` between the cells of one row: every cell of
the row gets the per-cell paragraph scan. -/
def insertRowCells (cells : List (List IPara)) : List (List IPara) × Bool :=
  let xs := cells.map insertFirstPara
  (xs.map Prod.fst, xs.any Prod.snd)

/-- The row loop: `if image_inserted: break` guards each new row. -/
def insertRows : List (List (List IPara)) → List (List (List IPara)) × Bool
  | [] => ([], false)
  | rw :: rws =>
    let x := insertRowCells rw
    if x.2 then (x.1 :: rws, true)
    else
      let y := insertRows rws
      (x.1 :: y.1, y.2)

/-- The table loop: `if image_inserted: break` guards each new table. -/
def insertTables : List (List (List (List IPara))) → List (List (List (List IPara))) × Bool
  | [] => ([], false)
  | tb :: tbs =>
    let x := insertRows tb
    if x.2 then (x.1 :: tbs, true)
    else
      let y := insertTables tbs
      (x.1 :: y.1, y.2)

/-- A document for the image pass: body paragraphs and tables
(tables -> rows -> cells -> paragraphs). -/
structure IDoc where
  body : List IPara
  tables : List (List (List (List IPara)))
deriving DecidableEq

/-- The topology-image insertion block of `generate_documents`: scan the
body paragraphs first; only when no body paragraph matched, scan the
tables. -/
def insertTopoImage (d : IDoc) : IDoc :=
  let b := insertFirstPara d.body
  if b.2 then ⟨b.1, d.tables⟩
  else ⟨b.1, (insertTables d.tables).1⟩

/-- Total number of embedded pictures in a document. -/
def picCount (d : IDoc) : Nat :=
  (d.body.map IPara.pics).sum
    + (d.tables.map (fun tb =>
        (tb.map (fun rw => (rw.map (fun cl => (cl.map IPara.pics).sum)).sum)).sum)).sum

/-! ### Nearest C/AG lookup (`find_nearest_cag`) -/

/-- `hostname.startswith('AG-') or hostname.startswith('C-')`. -/
def isCag (h : String) : Bool :=
  List.isPrefixOf "AG-".data h.data || List.isPrefixOf "C-".data h.data

/-- Split a character list at commas (Python's `split(',')`). -/
def splitComma : Txt → Txt → List Txt
  | [], acc => [acc.reverse]
  | c :: rest, acc =>
    if c = ',' then acc.reverse :: splitComma rest [] else splitComma rest (c :: acc)

/-- `[h.strip() for h in chain.split(',') if h.strip()]`. -/
def parseChain (chain : String) : List String :=
  ((splitComma chain.data []).map (fun l => stripStr ⟨l⟩)).filter (fun h => h ≠ "")

/-- Index of the first hostname equal to the query. -/
def findPos (pag : String) : List String → Option Nat
  | [] => none
  | h :: t => if h = pag then some 0 else (findPos pag t).map (· + 1)

/-- The left scan `for i in range(pag_pos-1, -1, -1)`: nearest C/AG
index below `pos`, returned with its distance. -/
def scanLeftAux (hosts : List String) (pos : Nat) : Nat → Option (Nat × String)
  | 0 => none
  | i+1 =>
    if isCag (hosts.getD i "") then some (pos - i, hosts.getD i "")
    else scanLeftAux hosts pos i

def scanLeft (hosts : List String) (pos : Nat) : Option (Nat × String) :=
  scanLeftAux hosts pos pos

/-- The right scan `for i in range(pag_pos+1, len(hostnames))`. -/
def scanRightAux (hosts : List String) (pos : Nat) : Nat → Nat → Option (Nat × String)
  | 0, _ => none
  | fuel+1, i =>
    if i < hosts.length then
      if isCag (hosts.getD i "") then some (i - pos, hosts.getD i "")
      else scanRightAux hosts pos fuel (i + 1)
    else none

def scanRight (hosts : List String) (pos : Nat) : Option (Nat × String) :=
  scanRightAux hosts pos hosts.length (pos + 1)

/-- The per-chain body of `find_nearest_cag`: locate the query, scan
both directions, return the nearer candidate with ties to the left. -/
def nearestCagInChain (pag : String) (hosts : List String) : Option String :=
  match findPos pag hosts with
  | none => none
  | some pos =>
    match scanLeft hosts pos, scanRight hosts pos with
    | some (ld, lc), some (rd, rc) => if ld ≤ rd then some lc else some rc
    | some (_, lc), none => some lc
    | none, some (_, rc) => some rc
    | none, none => none

/-- `find_nearest_cag(pag_hostname, topo_data)`: first chain that
contains the query and yields a candidate wins; empty chains are
skipped. -/
def find_nearest_cag (pag : String) : List String → Option String
  | [] => none
  | chain :: rest =>
    if chain = "" then find_nearest_cag pag rest
    else
      match nearestCagInChain pag (parseChain chain) with
      | some c => some c
      | none => find_nearest_cag pag rest

/-- Modelled from the spec: "model each chain as an ordered sequence of
node identifiers and specify the tie-break (left preferred when
distances equal) explicitly" — return the node whose identifier starts
with `AG-` or `C-` closest to the query position, scanning distances
`1, 2, ...` and preferring the left candidate at equal distance. -/
def nearestCagSpecAux (hosts : List String) (pos : Nat) : Nat → Nat → Option String
  | 0, _ => none
  | fuel+1, d =>
    if pos ≥ d ∧ isCag (hosts.getD (pos - d) "") = true then some (hosts.getD (pos - d) "")
    else if pos + d < hosts.length ∧ isCag (hosts.getD (pos + d) "") = true then
      some (hosts.getD (pos + d) "")
    else nearestCagSpecAux hosts pos fuel (d + 1)

/-- Declarative nearest-C/AG (the spec's wording; compare with
`nearestCagInChain`). -/
def nearestCagSpec (pag : String) (hosts : List String) : Option String :=
  match findPos pag hosts with
  | none => none
  | some pos => nearestCagSpecAux hosts pos hosts.length 1

/-! ### Spreadsheet auto-fill helpers -/

/-- Python dict assignment on an association list (replace or append). -/
def upsert : List (String × String) → String → String → List (String × String)
  | [], k, v => [(k, v)]
  | kv :: t, k, v => if kv.1 = k then (k, v) :: t else kv :: upsert t k v

/-- `ne_lookup` construction of `api_excel_autofill_ring` (and, with the
field roles renamed, `hostname_lookup` of `api_excel_autofill_hostname`):
key = stripped lower-cased name, value = stripped target, skipping
empty/`nan` keys. -/
def buildLookup (report : List (String × String)) : List (String × String) :=
  report.foldl (fun d kv =>
    let k := stripStr kv.1
    let v := stripStr kv.2
    if k ≠ "" ∧ lowerStr k ≠ "nan" then upsert d (lowerStr k) v else d) []

/-- `while len(row) <= idx: row.append('')`. -/
def padTo (row : List String) (n : Nat) : List String :=
  row ++ List.replicate (n + 1 - row.length) ""

/-- Body of the `for row in rows` loop shared by both auto-fill routes:
read the source cell (empty when out of range), skip empty/`nan`
sources, skip rows whose target cell already holds a value, otherwise
fill the target from the lookup when it yields a non-empty value. -/
def autofillRow (lookup : List (String × String)) (srcIdx tgtIdx : Nat)
    (row : List String) : List String :=
  let src := if srcIdx < row.length then stripStr (row.getD srcIdx "") else ""
  if src = "" ∨ lowerStr src = "nan" then row
  else
    let current := if tgtIdx < row.length then stripStr (row.getD tgtIdx "") else ""
    if current ≠ "" ∧ lowerStr current ≠ "nan" then row
    else
      match List.lookup (lowerStr src) lookup with
      | some v => if v ≠ "" then (padTo row tgtIdx).set tgtIdx v else row
      | none => row

/-- `api_excel_autofill_ring`: fill the Ring column from the
hostname-to-subnet lookup, row by row. -/
def api_excel_autofill_ring (lookup : List (String × String)) (hostIdx ringIdx : Nat)
    (rows : List (List String)) : List (List String) :=
  rows.map (autofillRow lookup hostIdx ringIdx)

/-- `api_excel_autofill_hostname`: fill the Hostname column from the
site-id-to-hostname lookup, row by row. -/
def api_excel_autofill_hostname (lookup : List (String × String)) (siteIdx hostIdx : Nat)
    (rows : List (List String)) : List (List String) :=
  rows.map (autofillRow lookup siteIdx hostIdx)

/-- "A placeholder whose characters are distributed across 3 separate
adjacent formatting runs": runs `i`, `i+1`, `i+2` exist, run `i` ends
with a non-empty piece `u`, run `i+1` lies entirely inside the
placeholder, run `i+2` starts with a non-empty piece `v`, and
`u ++ run(i+1) ++ v` is the placeholder. -/
def SplitAcross3 (p : Txt) (pa : Para) : Prop :=
  ∃ i u v, i + 2 < pa.runs.length ∧ u ≠ [] ∧ v ≠ [] ∧ pa.runs.getD (i+1) [] ≠ [] ∧
    u <:+ pa.runs.getD i [] ∧ v <+: pa.runs.getD (i+2) [] ∧
    p = u ++ pa.runs.getD (i+1) [] ++ v

/-! ### Concrete inputs used by counterexamples and witnesses -/

/-- A document whose only placeholder occurrence is split across two
text nodes of a header. -/
def cexDoc : Doc :=
  ⟨[], [], [], [⟨[⟨["\x7b\x7bDOC_".toList, "TITLE\x7d\x7d".toList]⟩], []⟩]⟩

/-- A document with the whole placeholder in a floating text node. -/
def witDoc : Doc := ⟨[], [], ["\x7b\x7bDOC_TITLE\x7d\x7d".toList], []⟩

/-- A paragraph holding both a whole-run occurrence of `abc` (run 0)
and an occurrence split across the 3 runs. -/
def cexPara : Para := ⟨["abc a".toList, "b".toList, "c tail".toList]⟩

/-- A paragraph whose only occurrence of the placeholder is split
across 3 runs. -/
def witPara : Para := ⟨["he\x7b\x7bDOC".toList, "_TIT".toList, "LE\x7d\x7dlo".toList]⟩

/-- One table, one row, two cells, each containing the topology-image
placeholder. -/
def cexIDoc : IDoc := ⟨[], [[[[⟨topoImagePh, 0⟩], [⟨topoImagePh, 0⟩]]]]⟩

/-- The raw (pre-normalization) grouping-key string of a record, with
missing data as empty string (`fillna('')`). -/
def ringRaw (c : String) (r : Rec) : String :=
  match r.fields.lookup c with
  | some v => v.getD ""
  | none => ""

/-- Concrete records for witnesses: two rows of ring `Ring A` written
with stray whitespace, one row of ring `Ring B` with a missing title. -/
def wRecA : Rec := ⟨[("Ring", some "Ring  A "), ("Title", some "T1")]⟩

def wRecB : Rec := ⟨[("Ring", some " Ring A"), ("Title", some "T2")]⟩

def wRecC : Rec := ⟨[("Ring", some "Ring B"), ("Title", none)]⟩

/-- A record whose title cell holds the empty string (present, blank). -/
def cexRecTitle : Rec := ⟨[("Title", some ""), ("Ring", some "K")]⟩

/-- A concrete 6-column table with one header row and two stale body
rows. -/
def wTable : WTable :=
  ⟨6, [["No", "Tower ID", "Hostname", "Ring", "IP", "NE"],
       ["s", "s", "s", "s", "s", "s"],
       ["u", "u", "u", "u", "u", "u"]]⟩

/-- A concrete scope configuration used by witnesses. -/
def wCfg : ScopeCfg := ⟨["Tower ID", "Hostname"], "Ring", "Title", "Tower ID"⟩

/-! ## Lemmas about the string primitives -/

theorem containsB_iff (p s : Txt) : containsB p s = true ↔ p <:+: s := by
  induction s with
  | nil => simp [containsB, List.isEmpty_iff]
  | cons c rest ih =>
    simp only [containsB, Bool.or_eq_true, List.isPrefixOf_iff_prefix, ih,
      List.infix_cons_iff]

theorem infix_iff_exists_drop (p s : Txt) : p <:+: s ↔ ∃ i, p <+: s.drop i := by
  constructor
  · rintro ⟨u, v, rfl⟩
    refine ⟨u.length, v, ?_⟩
    rw [List.append_assoc, List.drop_left]
  · rintro ⟨i, v, hv⟩
    refine ⟨s.take i, v, ?_⟩
    rw [List.append_assoc, hv, List.take_append_drop]

theorem replFuel_nil (p r : Txt) (f : Nat) : replFuel p r f [] = [] := by
  cases f <;> rfl

/-- A prefix of a replacement result that avoids every character of the
replacement text is a prefix of the original input. -/
theorem replFuel_pres (p r : Txt) (hr : r ≠ []) :
    ∀ (f : Nat) (s q : Txt), (∀ c ∈ q, c ∉ r) → s.length ≤ f →
      q <+: replFuel p r f s → q <+: s := by
  intro f
  induction f with
  | zero =>
    intro s q _ hs h
    match s, hs with
    | [], _ => simpa [replFuel_nil] using h
  | succ f ih =>
    intro s q hq hs h
    match s with
    | [] => simpa [replFuel_nil] using h
    | c :: rest =>
      rw [replFuel] at h
      split at h
      · match q with
        | [] => exact List.nil_prefix
        | a :: q' =>
          match r, hr with
          | rh :: rt, _ =>
            rw [List.cons_append, List.cons_prefix_cons] at h
            exact absurd (List.mem_cons_self rh rt)
              (h.1 ▸ hq a (List.mem_cons_self a q'))
      · match q with
        | [] => exact List.nil_prefix
        | a :: q' =>
          rw [List.cons_prefix_cons] at h
          have h2 := ih rest q' (fun c hc => hq c (List.mem_cons_of_mem a hc))
            (by simpa using Nat.le_of_succ_le_succ hs) h.2
          exact List.cons_prefix_cons.mpr ⟨h.1, h2⟩

/-- After `str.replace(p, r)` with a replacement sharing no character
with the pattern, the pattern does not start at any position. -/
theorem replFuel_no_occ (p r : Txt) (hp : p ≠ []) (hr : r ≠ [])
    (hpr : ∀ c ∈ r, c ∉ p) :
    ∀ (f : Nat) (s : Txt) (j : Nat), s.length ≤ f →
      ¬ p <+: (replFuel p r f s).drop j := by
  intro f
  induction f with
  | zero =>
    intro s j hs h
    match s, hs with
    | [], _ => rw [replFuel_nil, List.drop_nil, List.prefix_nil] at h; exact hp h
  | succ f ih =>
    intro s j hs h
    match s with
    | [] => rw [replFuel_nil, List.drop_nil, List.prefix_nil] at h; exact hp h
    | c :: rest =>
      rw [replFuel] at h
      split at h
      next hcond =>
        have hplen : 1 ≤ p.length := by
          match p, hp with
          | _ :: _, _ => simp
        have hlen2 : ((c :: rest).drop p.length).length ≤ f := by
          simp only [List.length_drop, List.length_cons]
          simp only [List.length_cons] at hs
          omega
        rw [List.drop_append_eq_append_drop] at h
        by_cases hj : r.length ≤ j
        · rw [List.drop_eq_nil_iff.mpr hj, List.nil_append] at h
          exact ih _ _ hlen2 h
        · have hne : r.drop j ≠ [] := by
            rw [Ne, List.drop_eq_nil_iff]; omega
          obtain ⟨d, ds, hrd⟩ : ∃ d ds, r.drop j = d :: ds := by
            rcases hx : r.drop j with _ | ⟨d, ds⟩
            · exact absurd hx hne
            · exact ⟨d, ds, rfl⟩
          rw [hrd] at h
          rcases hpp : p with _ | ⟨ph, pt⟩
          · exact hp hpp
          rw [hpp, List.cons_append, List.cons_prefix_cons] at h
          have hdr : d ∈ r := List.drop_subset j r (hrd ▸ List.mem_cons_self d ds)
          exact hpr d hdr (by rw [hpp]; exact h.1 ▸ List.mem_cons_self ph pt)
      next hcond =>
        match j with
        | j' + 1 =>
          rw [List.drop_succ_cons] at h
          exact ih rest j' (by simpa using Nat.le_of_succ_le_succ hs) h
        | 0 =>
          rw [List.drop_zero] at h
          rcases hpp : p with _ | ⟨ph, pt⟩
          · exact hp hpp
          subst hpp
          rw [List.cons_prefix_cons] at h
          have hq : ∀ x ∈ pt, x ∉ r := by
            intro x hx hxr
            exact hpr x hxr (List.mem_cons_of_mem ph hx)
          have h2 : pt <+: rest :=
            replFuel_pres (ph :: pt) r hr f rest pt hq
              (by simpa using Nat.le_of_succ_le_succ hs) h.2
          have h3 : (ph :: pt) <+: (c :: rest) :=
            List.cons_prefix_cons.mpr ⟨h.1, h2⟩
          rw [Bool.and_eq_true, List.isPrefixOf_iff_prefix] at hcond
          exact hcond ⟨h3, by simp⟩

/-- `replaceAll` with a character-disjoint non-empty replacement leaves
no occurrence of the pattern anywhere in its output. -/
theorem replaceAll_no_occ (p r s : Txt) (hp : p ≠ []) (hr : r ≠ [])
    (hpr : ∀ c ∈ r, c ∉ p) : ¬ p <:+: replaceAll p r s := by
  rw [infix_iff_exists_drop]
  rintro ⟨i, hi⟩
  exact replFuel_no_occ p r hp hr hpr s.length s i Nat.le.refl hi

/-- `str.replace` is the identity when the pattern does not occur. -/
theorem replFuel_of_not_infix (p r : Txt) :
    ∀ (f : Nat) (s : Txt), s.length ≤ f → ¬ p <:+: s → replFuel p r f s = s := by
  intro f
  induction f with
  | zero =>
    intro s hs _
    match s, hs with
    | [], _ => exact replFuel_nil p r 0
  | succ f ih =>
    intro s hs hocc
    match s with
    | [] => exact replFuel_nil p r _
    | c :: rest =>
      rw [replFuel]
      split
      next hcond =>
        rw [Bool.and_eq_true, List.isPrefixOf_iff_prefix] at hcond
        exact absurd (List.infix_cons_iff.mpr (Or.inl hcond.1)) hocc
      next hcond =>
        have : ¬ p <:+: rest := fun hx => hocc (List.infix_cons hx)
        rw [ih rest (by simpa using Nat.le_of_succ_le_succ hs) this]

theorem replaceAll_of_not_infix (p r s : Txt) (h : ¬ p <:+: s) :
    replaceAll p r s = s :=
  replFuel_of_not_infix p r s.length s Nat.le.refl h

/-- When the pattern occurs, the replacement text occurs in the result. -/
theorem replFuel_r_infix (p r : Txt) (hp : p ≠ []) :
    ∀ (f : Nat) (s : Txt), s.length ≤ f → p <:+: s → r <:+: replFuel p r f s := by
  intro f
  induction f with
  | zero =>
    intro s hs hocc
    match s, hs with
    | [], _ => rw [List.infix_nil] at hocc; exact absurd hocc hp
  | succ f ih =>
    intro s hs hocc
    match s with
    | [] => rw [List.infix_nil] at hocc; exact absurd hocc hp
    | c :: rest =>
      rw [replFuel]
      split
      next hcond => exact ⟨[], _, rfl⟩
      next hcond =>
        have hnp : ¬ p <+: (c :: rest) := by
          intro hpre
          rw [Bool.and_eq_true, List.isPrefixOf_iff_prefix] at hcond
          exact hcond ⟨hpre, by simpa [List.isEmpty_iff]⟩
        have : p <:+: rest := (List.infix_cons_iff.mp hocc).resolve_left hnp
        exact List.infix_cons (ih rest (by simpa using Nat.le_of_succ_le_succ hs) this)

theorem replaceAll_r_infix (p r s : Txt) (hp : p ≠ []) (h : p <:+: s) :
    r <:+: replaceAll p r s :=
  replFuel_r_infix p r hp s.length s Nat.le.refl h

/-! ## Lemmas about the substitution engine -/

theorem xpathNode_id_of_free (p r t : Txt) (h : ¬ p <:+: t) : xpathNode p r t = t := by
  rw [xpathNode]
  split
  next hc =>
    rw [Bool.and_eq_true] at hc
    exact absurd ((containsB_iff p t).mp hc.2) h
  next => rfl

theorem xpathNode_no_occ (p r t : Txt) (hp : p ≠ []) (hr : r ≠ [])
    (hpr : ∀ c ∈ r, c ∉ p) : ¬ p <:+: xpathNode p r t := by
  rw [xpathNode]
  split
  next => exact replaceAll_no_occ p r t hp hr hpr
  next hc =>
    intro hinf
    have ht : t ≠ [] := by
      intro he
      rw [he, List.infix_nil] at hinf
      exact hp hinf
    rw [Bool.and_eq_true] at hc
    exact hc ⟨by simpa [List.isEmpty_iff], (containsB_iff p t).mpr hinf⟩

theorem xpathNode_r_infix (p r t : Txt) (hp : p ≠ []) (h : p <:+: t) :
    r <:+: xpathNode p r t := by
  have ht : t ≠ [] := by
    intro he
    rw [he, List.infix_nil] at h
    exact hp h
  rw [xpathNode, if_pos]
  · exact replaceAll_r_infix p r t hp h
  · rw [Bool.and_eq_true]
    exact ⟨by simpa [List.isEmpty_iff], (containsB_iff p t).mpr h⟩

theorem flatten_blank (ts : List Txt) : (ts.map (fun _ => ([] : Txt))).flatten = [] := by
  induction ts with
  | nil => rfl
  | cons x xs ih => simp [ih]

theorem infix_flatten {l : List Txt} {t : Txt} (h : t ∈ l) : t <:+: l.flatten := by
  induction l with
  | nil => cases h
  | cons x xs ih =>
    rcases List.mem_cons.mp h with h1 | h2
    · subst h1
      simpa using (List.prefix_append t xs.flatten).isInfix
    · exact (ih h2).trans (by simpa using (List.suffix_append x xs.flatten).isInfix)

theorem run_infix_paraText (pa : Para) (t : Txt) (h : t ∈ pa.runs) : t <:+: paraText pa :=
  infix_flatten h

theorem mapCount_fst {α : Type} (f : α → α × Bool) (l : List α) :
    (mapCount f l).1 = l.map (fun a => (f a).1) := by
  induction l with
  | nil => rfl
  | cons a as ih => simp [mapCount, ih]

theorem result_paragraphs (p r : Txt) (d : Doc) :
    (global_replace p r d).1.paragraphs = d.paragraphs.map (processPara p r) := by
  simp [global_replace, mapCount_fst, processPara, Function.comp_def]

theorem result_tables (p r : Txt) (d : Doc) :
    (global_replace p r d).1.tables =
      d.tables.map (fun tb => ⟨tb.rows.map (fun rw =>
        ⟨rw.cells.map (fun cl => ⟨cl.paras.map (processPara p r)⟩)⟩)⟩) := by
  simp [global_replace, gateTable, gateRow, gateCell, tableX, rowX, cellX,
    mapCount_fst, processPara, Function.comp_def]

theorem result_floats (p r : Txt) (d : Doc) :
    (global_replace p r d).1.floats = d.floats.map (xpathNode p r) := rfl

theorem result_sections (p r : Txt) (d : Doc) :
    (global_replace p r d).1.sections =
      d.sections.map (fun sec =>
        ⟨sec.headers.map (fun h => ⟨h.nodes.map (xpathNode p r)⟩),
         sec.footers.map (fun h => ⟨h.nodes.map (xpathNode p r)⟩)⟩) := by
  simp [global_replace, sectionX, hfX, xpath_replace, Function.comp_def]

theorem processPara_runs (p r : Txt) (pa : Para) :
    (processPara p r pa).runs = (gatePara p r pa).1.runs.map (xpathNode p r) := rfl

/-- Every text node of the output of `global_replace` is the image of
some text under the per-node `xpath` action. -/
theorem mem_docNodes_result (p r : Txt) (d : Doc) (t : Txt)
    (ht : t ∈ docNodes (global_replace p r d).1) : ∃ t0, t = xpathNode p r t0 := by
  rw [docNodes, result_paragraphs, result_tables, result_floats, result_sections] at ht
  simp only [List.mem_append, List.mem_flatMap, List.mem_map] at ht
  rcases ht with ((⟨pa, ⟨pa0, _, rfl⟩, hrun⟩ | ⟨tb, ⟨tb0, _, rfl⟩, hrun⟩) | ⟨t0, _, rfl⟩) | h4
  · rw [processPara_runs] at hrun
    obtain ⟨t0, _, rfl⟩ := List.mem_map.mp hrun
    exact ⟨t0, rfl⟩
  · rw [tableNodes] at hrun
    simp only [List.mem_flatMap, List.mem_map] at hrun
    obtain ⟨rw1, hrw1, hrun⟩ := hrun
    obtain ⟨rw0, _, rfl⟩ := hrw1
    rw [rowNodes] at hrun
    simp only [List.mem_flatMap, List.mem_map] at hrun
    obtain ⟨cl1, hcl1, hrun⟩ := hrun
    obtain ⟨cl0, _, rfl⟩ := hcl1
    rw [cellNodes] at hrun
    simp only [List.mem_flatMap, List.mem_map] at hrun
    obtain ⟨pa1, hpa1, hrun⟩ := hrun
    obtain ⟨pa0, _, rfl⟩ := hpa1
    rw [processPara_runs] at hrun
    obtain ⟨t0, _, rfl⟩ := List.mem_map.mp hrun
    exact ⟨t0, rfl⟩
  · exact ⟨t0, rfl⟩
  · obtain ⟨sec, ⟨sec0, _, rfl⟩, hsec⟩ := h4
    simp only [List.mem_append, List.mem_flatMap, List.mem_map] at hsec
    rcases hsec with ⟨h1, ⟨h0, _, rfl⟩, hn⟩ | ⟨h1, ⟨h0, _, rfl⟩, hn⟩ <;>
      · obtain ⟨t0, _, rfl⟩ := List.mem_map.mp hn
        exact ⟨t0, rfl⟩

theorem docTitlePh_ne : docTitlePh ≠ [] := by decide

theorem xRep_ne : xRep ≠ [] := by decide

theorem xRep_disj : ∀ c ∈ xRep, c ∉ docTitlePh := by decide

theorem containsB_false_of_free {p t : Txt} (h : ¬ p <:+: t) : containsB p t = false := by
  cases hc : containsB p t
  · rfl
  · exact absurd ((containsB_iff p t).mp hc) h

theorem runHasPh_false_of_free {p t : Txt} (h : ¬ p <:+: t) : runHasPh p t = false := by
  simp [runHasPh, containsB_false_of_free h]

/-- A body (or table-cell) paragraph none of whose runs wholly contains
the placeholder ends the composite pass with a placeholder-free
concatenated text. -/
theorem processPara_free (p r : Txt) (hp : p ≠ []) (hr : r ≠ [])
    (hpr : ∀ c ∈ r, c ∉ p) (pa : Para) (hruns : ∀ t ∈ pa.runs, ¬ p <:+: t) :
    ¬ p <:+: paraText (processPara p r pa) := by
  rw [processPara]
  by_cases hc : containsB p (paraText pa) = true
  · have hany : pa.runs.any (runHasPh p) = false :=
      List.any_eq_false.mpr (fun t htm => by rw [runHasPh_false_of_free (hruns t htm)]; simp)
    have hg : (gatePara p r pa).1 =
        ⟨blankAfterFirst (replaceAll p r (paraText pa)) pa.runs⟩ := by
      rw [gatePara, if_pos hc, replace_placeholder_in_paragraph]
      simp [hc, hany]
    rw [hg]
    have hfree : ¬ p <:+: replaceAll p r (paraText pa) :=
      replaceAll_no_occ p r (paraText pa) hp hr hpr
    cases hpa : pa.runs with
    | nil =>
      simp only [blankAfterFirst, paraX, paraText, List.map_nil, List.flatten_nil]
      intro hx
      exact hp (List.infix_nil.mp hx)
    | cons t ts =>
      simp only [blankAfterFirst, paraX, paraText, List.map_cons, List.map_map,
        List.flatten_cons]
      rw [paraText] at hfree
      rw [xpathNode_id_of_free p r _ hfree]
      have hblank : (ts.map ((xpathNode p r) ∘ (fun _ : Txt => ([] : Txt)))).flatten = [] := by
        have hfn : (xpathNode p r) ∘ (fun _ : Txt => ([] : Txt)) = fun _ : Txt => ([] : Txt) := by
          funext y
          exact xpathNode_id_of_free p r []
            (fun hx => hp (List.infix_nil.mp hx))
        rw [hfn, flatten_blank]
      rw [hblank, List.append_nil]
      exact hfree
  · have hg : gatePara p r pa = (pa, false) := by rw [gatePara, if_neg hc]
    rw [hg]
    have hid : pa.runs.map (xpathNode p r) = pa.runs := by
      rw [List.map_congr_left (fun t ht => xpathNode_id_of_free p r t (hruns t ht))]
      exact List.map_id _
    simp only [paraX, paraText, hid]
    intro hinf
    exact hc ((containsB_iff _ _).mpr hinf)

theorem replaceFirstRun_r (p r : Txt) (hp : p ≠ []) (hr : r ≠ [])
    (hpr : ∀ c ∈ r, c ∉ p) :
    ∀ ts : List Txt, (∃ t ∈ ts, runHasPh p t = true) →
      ∃ t' ∈ replaceFirstRun p r ts, r <:+: t' ∧ ¬ p <:+: t' := by
  intro ts
  induction ts with
  | nil => rintro ⟨t, ht, -⟩; cases ht
  | cons t ts ih =>
    rintro ⟨t0, ht0, hhas⟩
    rw [replaceFirstRun]
    by_cases hx : runHasPh p t = true
    · rw [if_pos hx]
      refine ⟨replaceAll p r t, List.mem_cons_self _ _,
        ?_, replaceAll_no_occ p r t hp hr hpr⟩
      rw [runHasPh, Bool.and_eq_true] at hx
      exact replaceAll_r_infix p r t hp ((containsB_iff p t).mp hx.2)
    · rw [if_neg hx]
      have ht0' : t0 ∈ ts := by
        rcases List.mem_cons.mp ht0 with rfl | h
        · exact absurd hhas hx
        · exact h
      obtain ⟨t', ht', hr'⟩ := ih ⟨t0, ht0', hhas⟩
      exact ⟨t', List.mem_cons_of_mem _ ht', hr'⟩

/-- A paragraph one of whose runs wholly contains the placeholder ends
the composite pass with a run containing the replacement text. -/
theorem processPara_r (p r : Txt) (hp : p ≠ []) (hr : r ≠ [])
    (hpr : ∀ c ∈ r, c ∉ p) (pa : Para) (t0 : Txt) (ht0 : t0 ∈ pa.runs)
    (hocc : p <:+: t0) : ∃ t' ∈ (processPara p r pa).runs, r <:+: t' := by
  have hfull : p <:+: paraText pa := hocc.trans (run_infix_paraText pa t0 ht0)
  have hcB : containsB p (paraText pa) = true := (containsB_iff _ _).mpr hfull
  have ht0ne : t0 ≠ [] := fun he => hp (List.infix_nil.mp (he ▸ hocc))
  have hhas : runHasPh p t0 = true := by
    rw [runHasPh, Bool.and_eq_true]
    exact ⟨by simpa [List.isEmpty_iff], (containsB_iff _ _).mpr hocc⟩
  have hany : pa.runs.any (runHasPh p) = true := List.any_eq_true.mpr ⟨t0, ht0, hhas⟩
  have hg : (gatePara p r pa).1 = ⟨replaceFirstRun p r pa.runs⟩ := by
    rw [gatePara, if_pos hcB, replace_placeholder_in_paragraph]
    simp [hcB, hany]
  rw [processPara, hg, paraX]
  obtain ⟨t', ht', hrt', hfree⟩ := replaceFirstRun_r p r hp hr hpr pa.runs ⟨t0, ht0, hhas⟩
  refine ⟨t', ?_, hrt'⟩
  have hxid : xpathNode p r t' = t' := xpathNode_id_of_free p r t' hfree
  exact hxid ▸ List.mem_map_of_mem _ ht'

/-- Claim C1 (amended).  After a single
`global_replace(doc, "DOC_TITLE placeholder", "X")`: (1) no individual
text node anywhere in the document (body and table runs, floating
containers, headers, footers) still contains the placeholder; (2) a
body or table-cell paragraph none of whose runs wholly contained an
occurrence ends with a placeholder-free concatenated text, even when
the placeholder straddled run boundaries; (3) if some text node
contained the placeholder, some text node of the result contains `X`.
Occurrences split across separate nodes of headers, footers or floating
containers are not replaced (see the counterexample). -/
theorem claim1_title_substitution (d : Doc) :
    (∀ t ∈ docNodes (global_replace docTitlePh xRep d).1, ¬ docTitlePh <:+: t) ∧
    (∀ pa : Para, (∀ t ∈ pa.runs, ¬ docTitlePh <:+: t) →
        ¬ docTitlePh <:+: paraText (processPara docTitlePh xRep pa)) ∧
    ((∃ t0 ∈ docNodes d, docTitlePh <:+: t0) →
        ∃ t ∈ docNodes (global_replace docTitlePh xRep d).1, xRep <:+: t) := by
  refine ⟨?_, ?_, ?_⟩
  · intro t ht
    obtain ⟨t0, rfl⟩ := mem_docNodes_result _ _ d t ht
    exact xpathNode_no_occ _ _ t0 docTitlePh_ne xRep_ne xRep_disj
  · intro pa h
    exact processPara_free _ _ docTitlePh_ne xRep_ne xRep_disj pa h
  · rintro ⟨t0, ht0, hocc⟩
    rw [docNodes] at ht0
    rcases List.mem_append.mp ht0 with h123 | h4
    · rcases List.mem_append.mp h123 with h12 | h3
      · rcases List.mem_append.mp h12 with h1 | h2
        · obtain ⟨pa, hpa, hrun⟩ := List.mem_flatMap.mp h1
          obtain ⟨t', ht', hxt'⟩ :=
            processPara_r _ _ docTitlePh_ne xRep_ne xRep_disj pa t0 hrun hocc
          refine ⟨t', ?_, hxt'⟩
          rw [docNodes]
          refine List.mem_append.mpr (Or.inl (List.mem_append.mpr (Or.inl
            (List.mem_append.mpr (Or.inl ?_)))))
          rw [result_paragraphs]
          exact List.mem_flatMap.mpr
            ⟨processPara docTitlePh xRep pa, List.mem_map_of_mem _ hpa, ht'⟩
        · obtain ⟨tb, htb, hrun⟩ := List.mem_flatMap.mp h2
          rw [tableNodes] at hrun
          obtain ⟨rw1, hrw1, hrun⟩ := List.mem_flatMap.mp hrun
          rw [rowNodes] at hrun
          obtain ⟨cl1, hcl1, hrun⟩ := List.mem_flatMap.mp hrun
          rw [cellNodes] at hrun
          obtain ⟨pa, hpa, hrun⟩ := List.mem_flatMap.mp hrun
          obtain ⟨t', ht', hxt'⟩ :=
            processPara_r _ _ docTitlePh_ne xRep_ne xRep_disj pa t0 hrun hocc
          refine ⟨t', ?_, hxt'⟩
          rw [docNodes]
          refine List.mem_append.mpr (Or.inl (List.mem_append.mpr (Or.inl
            (List.mem_append.mpr (Or.inr ?_)))))
          rw [result_tables]
          refine List.mem_flatMap.mpr ⟨_, List.mem_map_of_mem _ htb, ?_⟩
          rw [tableNodes]
          refine List.mem_flatMap.mpr ⟨_, List.mem_map_of_mem _ hrw1, ?_⟩
          rw [rowNodes]
          refine List.mem_flatMap.mpr ⟨_, List.mem_map_of_mem _ hcl1, ?_⟩
          rw [cellNodes]
          exact List.mem_flatMap.mpr
            ⟨processPara docTitlePh xRep pa, List.mem_map_of_mem _ hpa, ht'⟩
      · refine ⟨xpathNode docTitlePh xRep t0, ?_,
          xpathNode_r_infix _ _ t0 docTitlePh_ne hocc⟩
        rw [docNodes]
        refine List.mem_append.mpr (Or.inl (List.mem_append.mpr (Or.inr ?_)))
        rw [result_floats]
        exact List.mem_map_of_mem _ h3
    · obtain ⟨sec, hsec, hmem⟩ := List.mem_flatMap.mp h4
      refine ⟨xpathNode docTitlePh xRep t0, ?_,
        xpathNode_r_infix _ _ t0 docTitlePh_ne hocc⟩
      rw [docNodes]
      refine List.mem_append.mpr (Or.inr ?_)
      rw [result_sections]
      refine List.mem_flatMap.mpr ⟨_, List.mem_map_of_mem _ hsec, ?_⟩
      rcases List.mem_append.mp hmem with hh | hf
      · obtain ⟨h0, hh0, hn⟩ := List.mem_flatMap.mp hh
        refine List.mem_append.mpr (Or.inl ?_)
        exact List.mem_flatMap.mpr ⟨_, List.mem_map_of_mem _ hh0, List.mem_map_of_mem _ hn⟩
      · obtain ⟨h0, hh0, hn⟩ := List.mem_flatMap.mp hf
        refine List.mem_append.mpr (Or.inr ?_)
        exact List.mem_flatMap.mpr ⟨_, List.mem_map_of_mem _ hh0, List.mem_map_of_mem _ hn⟩

/-- Claim C1 counterexample: in a document whose only occurrence of the
placeholder is split across two adjacent text nodes of a header, one
call of `global_replace` changes nothing: the concatenated header text
still contains the placeholder and no node contains `X`. -/
theorem claim1_title_substitution_cex :
    (global_replace docTitlePh xRep cexDoc).1 = cexDoc ∧
    containsB docTitlePh (docNodes (global_replace docTitlePh xRep cexDoc).1).flatten
      = true ∧
    (docNodes (global_replace docTitlePh xRep cexDoc).1).all
      (fun t => !containsB xRep t) = true := by
  decide

theorem claim1_title_substitution_wit :
    ∃ t ∈ docNodes (global_replace docTitlePh xRep witDoc).1, xRep <:+: t :=
  (claim1_title_substitution witDoc).2.2
    ⟨"\x7b\x7bDOC_TITLE\x7d\x7d".toList, by decide,
      (containsB_iff _ _).mp (by decide)⟩

/-- A placeholder split across three adjacent runs occurs in the
concatenated paragraph text. -/
theorem splitAcross3_infix (p : Txt) (pa : Para) (h : SplitAcross3 p pa) :
    p <:+: paraText pa := by
  obtain ⟨i, u, v, hi, hu, hv, hm, hsuf, hpre, hpeq⟩ := h
  obtain ⟨a, ha⟩ := hsuf
  obtain ⟨b, hb⟩ := hpre
  have h1 : i < pa.runs.length := by omega
  have h2 : i + 1 < pa.runs.length := by omega
  have h3 : i + 2 < pa.runs.length := by omega
  have key : paraText pa = (pa.runs.take i).flatten ++
      (pa.runs.getD i [] ++ (pa.runs.getD (i+1) [] ++ (pa.runs.getD (i+2) [] ++
        (pa.runs.drop (i+3)).flatten))) := by
    conv_lhs => rw [paraText, ← List.take_append_drop i pa.runs]
    rw [List.flatten_append]
    congr 1
    rw [List.drop_eq_getElem_cons h1, List.flatten_cons, List.getD_eq_getElem _ _ h1]
    congr 1
    rw [List.drop_eq_getElem_cons h2, List.flatten_cons, List.getD_eq_getElem _ _ h2]
    congr 1
    rw [List.drop_eq_getElem_cons h3, List.flatten_cons, List.getD_eq_getElem _ _ h3]
  refine ⟨(pa.runs.take i).flatten ++ a, b ++ (pa.runs.drop (i+3)).flatten, ?_⟩
  rw [key, ← ha, ← hb, hpeq]
  simp [List.append_assoc]

/-- Claim C2 (amended).  A body paragraph whose concatenated run text
contains the placeholder, with the placeholder distributed across 3
separate adjacent runs, is fully rewritten — the concatenated text
equals the original with the placeholder replaced, the rewritten text
sits in the first run, and the remaining runs are set to empty rather
than deleted — provided no single run of the paragraph wholly contains
an occurrence of the placeholder (otherwise only the in-run occurrence
is replaced; see the counterexample). -/
theorem claim2_split_span (pa : Para) (p r : Txt)
    (hsplit : SplitAcross3 p pa)
    (hnone : ∀ t ∈ pa.runs, ¬ p <:+: t) :
    (replace_placeholder_in_paragraph p r pa).2 = true ∧
    (replace_placeholder_in_paragraph p r pa).1.runs.length = pa.runs.length ∧
    paraText (replace_placeholder_in_paragraph p r pa).1 =
      replaceAll p r (paraText pa) ∧
    (replace_placeholder_in_paragraph p r pa).1.runs.head? =
      some (replaceAll p r (paraText pa)) ∧
    ∀ t ∈ (replace_placeholder_in_paragraph p r pa).1.runs.tail, t = [] := by
  have hfull : p <:+: paraText pa := splitAcross3_infix p pa hsplit
  have hcB : containsB p (paraText pa) = true := (containsB_iff _ _).mpr hfull
  have hany : pa.runs.any (runHasPh p) = false :=
    List.any_eq_false.mpr (fun t ht => by rw [runHasPh_false_of_free (hnone t ht)]; simp)
  have hrp : replace_placeholder_in_paragraph p r pa =
      (⟨blankAfterFirst (replaceAll p r (paraText pa)) pa.runs⟩, true) := by
    rw [replace_placeholder_in_paragraph]
    simp [hcB, hany]
  obtain ⟨i, u, v, hi, -⟩ := hsplit
  rw [hrp]
  cases hruns : pa.runs with
  | nil => rw [hruns] at hi; simp at hi
  | cons t ts =>
    refine ⟨rfl, ?_, ?_, ?_, ?_⟩
    · simp [blankAfterFirst]
    · simp [blankAfterFirst, paraText, flatten_blank]
    · simp [blankAfterFirst]
    · intro x hx
      simp only [blankAfterFirst, List.tail_cons] at hx
      obtain ⟨y, -, rfl⟩ := List.mem_map.mp hx
      rfl

/-- Claim C2 counterexample: in a paragraph with runs
`["abc a", "b", "c tail"]` the placeholder `abc` is split across the 3
runs, but since run 0 also wholly contains an occurrence, the
paragraph-level replacement replaces only that one: the concatenated
text afterwards is `"Z abc tail"`, not `"Z Z tail"`, and the trailing
runs are not emptied. -/
theorem claim2_split_span_cex :
    SplitAcross3 "abc".toList cexPara ∧
    paraText (replace_placeholder_in_paragraph "abc".toList "Z".toList cexPara).1 ≠
      replaceAll "abc".toList "Z".toList (paraText cexPara) ∧
    ¬ (∀ t ∈ (replace_placeholder_in_paragraph "abc".toList "Z".toList
        cexPara).1.runs.tail, t = []) :=
  ⟨⟨0, "a".toList, "c".toList, by decide⟩, by decide, by decide⟩

/-! ## Whitespace-normalization lemmas -/

theorem mem_takeWhile_pred {p : Char → Bool} :
    ∀ {l : Txt} {x : Char}, x ∈ l.takeWhile p → p x = true := by
  intro l
  induction l with
  | nil => intro x h; cases h
  | cons c rest ih =>
    intro x h
    by_cases hc : p c
    · rw [List.takeWhile_cons_of_pos hc] at h
      rcases List.mem_cons.mp h with rfl | h2
      · exact hc
      · exact ih h2
    · rw [List.takeWhile_cons_of_neg hc] at h
      cases h

theorem length_dropWhile_le (p : Char → Bool) (l : Txt) :
    (l.dropWhile p).length ≤ l.length := by
  induction l with
  | nil => exact Nat.le.refl
  | cons c rest ih =>
    by_cases hc : p c
    · rw [List.dropWhile_cons_of_pos hc]
      exact Nat.le_succ_of_le ih
    · rw [List.dropWhile_cons_of_neg hc]

theorem takeWhile_dropWhile_nil (p : Char → Bool) (l : Txt) :
    (l.dropWhile p).takeWhile p = [] := by
  induction l with
  | nil => rfl
  | cons c rest ih =>
    by_cases hc : p c
    · rw [List.dropWhile_cons_of_pos hc]; exact ih
    · rw [List.dropWhile_cons_of_neg hc, List.takeWhile_cons_of_neg hc]

theorem dropWhile_of_takeWhile_nil {p : Char → Bool} {l : Txt}
    (h : l.takeWhile p = []) : l.dropWhile p = l := by
  cases l with
  | nil => rfl
  | cons c rest =>
    by_cases hc : p c
    · rw [List.takeWhile_cons_of_pos hc] at h; cases h
    · rw [List.dropWhile_cons_of_neg hc]

theorem dropWhile_idem (p : Char → Bool) (l : Txt) :
    (l.dropWhile p).dropWhile p = l.dropWhile p :=
  dropWhile_of_takeWhile_nil (takeWhile_dropWhile_nil p l)

theorem takeWhile_rstrip_nil {p : Char → Bool} {m : Txt}
    (h : m.takeWhile p = []) : (rstripWS m).takeWhile p = [] := by
  cases m with
  | nil => rfl
  | cons e m' =>
    by_cases he : p e
    · rw [List.takeWhile_cons_of_pos he] at h; cases h
    · rw [rstripWS]
      split
      · rfl
      · rw [List.takeWhile_cons_of_neg he]

theorem takeWhile_append_word {p : Char → Bool} (w m : Txt)
    (hw : ∀ c ∈ w, p c = true) : (w ++ m).takeWhile p = w ++ m.takeWhile p := by
  induction w with
  | nil => rfl
  | cons c w' ih =>
    rw [List.cons_append, List.takeWhile_cons_of_pos (hw c (List.mem_cons_self c w')),
      ih (fun x hx => hw x (List.mem_cons_of_mem c hx)), List.cons_append]

theorem dropWhile_append_word {p : Char → Bool} (w m : Txt)
    (hw : ∀ c ∈ w, p c = true) : (w ++ m).dropWhile p = m.dropWhile p := by
  induction w with
  | nil => rfl
  | cons c w' ih =>
    rw [List.cons_append, List.dropWhile_cons_of_pos (hw c (List.mem_cons_self c w'))]
    exact ih (fun x hx => hw x (List.mem_cons_of_mem c hx))

theorem collapseWS_cons_nonws {c : Char} (hc : isWS c = false) (l : Txt) :
    collapseWS (c :: l) = c :: collapseWS l := by
  cases l with
  | nil => simp [collapseWS, hc]
  | cons d rest => simp [collapseWS, hc]

theorem collapseWS_word (w m : Txt) (hw : ∀ c ∈ w, isWS c = false) :
    collapseWS (w ++ m) = w ++ collapseWS m := by
  induction w with
  | nil => rfl
  | cons c w' ih =>
    rw [List.cons_append, collapseWS_cons_nonws (hw c (List.mem_cons_self c w')),
      ih (fun x hx => hw x (List.mem_cons_of_mem c hx)), List.cons_append]

theorem collapseWS_ws_append (run : Txt) (hne : run ≠ [])
    (hws : ∀ c ∈ run, isWS c = true) (e : Char) (he : isWS e = false) (m : Txt) :
    collapseWS (run ++ e :: m) = ' ' :: collapseWS (e :: m) := by
  induction run with
  | nil => exact absurd rfl hne
  | cons c rest ih =>
    have hc : isWS c = true := hws c (List.mem_cons_self c rest)
    cases rest with
    | nil => simp [collapseWS, hc, he]
    | cons d rest' =>
      have hd : isWS d = true := hws d (List.mem_cons_of_mem c (List.mem_cons_self d rest'))
      rw [List.cons_append]
      rw [show (d :: rest') ++ e :: m = d :: (rest' ++ e :: m) from rfl]
      rw [collapseWS]
      simp only [hc, hd, Bool.and_self, if_pos]
      exact ih (List.cons_ne_nil d rest')
        (fun x hx => hws x (List.mem_cons_of_mem c hx))

theorem tokensF_nil (f : Nat) : tokensF f [] = [] := by cases f <;> rfl

theorem tokensF_sound : ∀ f : Nat, ∀ l : Txt, l.length ≤ f → tokensF f l = wsTokens l := by
  intro f
  induction f using Nat.strong_induction_on with
  | _ f ih =>
    intro l hl
    match l with
    | [] => rw [tokensF_nil, wsTokens, tokensF_nil]
    | c :: rest =>
      match f, hl with
      | f' + 1, hl =>
        have hrest : rest.length ≤ f' := by
          simpa using Nat.le_of_succ_le_succ hl
        by_cases hc : isWS c = true
        · rw [show tokensF (f' + 1) (c :: rest) = tokensF f' rest by simp [tokensF, hc]]
          rw [show wsTokens (c :: rest) = tokensF rest.length rest by
            simp [wsTokens, tokensF, hc]]
          rw [ih f' (Nat.lt_succ_self f') rest hrest]
          rw [ih rest.length (Nat.lt_succ_of_le hrest) rest Nat.le.refl]
        · rw [Bool.not_eq_true] at hc
          have hdl : (rest.dropWhile (fun x => !isWS x)).length ≤ rest.length :=
            length_dropWhile_le _ rest
          rw [show tokensF (f' + 1) (c :: rest) =
              (c :: rest.takeWhile (fun x => !isWS x)) ::
                tokensF f' (rest.dropWhile (fun x => !isWS x)) by simp [tokensF, hc]]
          rw [show wsTokens (c :: rest) =
              (c :: rest.takeWhile (fun x => !isWS x)) ::
                tokensF rest.length (rest.dropWhile (fun x => !isWS x)) by
            simp [wsTokens, tokensF, hc]]
          rw [ih f' (Nat.lt_succ_self f') _ (Nat.le_trans hdl hrest)]
          rw [ih rest.length (Nat.lt_succ_of_le hrest) _ hdl]

theorem wsTokens_cons_ws {c : Char} (rest : Txt) (h : isWS c = true) :
    wsTokens (c :: rest) = wsTokens rest := by
  rw [show wsTokens (c :: rest) = tokensF rest.length rest by simp [wsTokens, tokensF, h]]
  exact tokensF_sound rest.length rest Nat.le.refl

theorem wsTokens_cons_nonws {c : Char} (rest : Txt) (h : isWS c = false) :
    wsTokens (c :: rest) = (c :: rest.takeWhile (fun x => !isWS x)) ::
      wsTokens (rest.dropWhile (fun x => !isWS x)) := by
  rw [show wsTokens (c :: rest) = (c :: rest.takeWhile (fun x => !isWS x)) ::
      tokensF rest.length (rest.dropWhile (fun x => !isWS x)) by
    simp [wsTokens, tokensF, h]]
  rw [tokensF_sound rest.length _ (length_dropWhile_le _ rest)]

theorem wsTokens_word_append (w m : Txt) (hw1 : w ≠ [])
    (hw : ∀ c ∈ w, isWS c = false)
    (hm : m.takeWhile (fun x => !isWS x) = []) :
    wsTokens (w ++ m) = w :: wsTokens m := by
  match w, hw1 with
  | c :: w', _ =>
    have hw' : ∀ x ∈ w', isWS x = false := fun x hx => hw x (List.mem_cons_of_mem c hx)
    have hw'' : ∀ x ∈ w', (fun x => !isWS x) x = true := by
      intro x hx; simp [hw' x hx]
    rw [List.cons_append, wsTokens_cons_nonws _ (hw c (List.mem_cons_self c w'))]
    rw [takeWhile_append_word w' m hw'', dropWhile_append_word w' m hw'', hm,
      List.append_nil, dropWhile_of_takeWhile_nil hm]

theorem wsTokens_dropWhile_ws (l : Txt) : wsTokens (l.dropWhile isWS) = wsTokens l := by
  induction l with
  | nil => rfl
  | cons c rest ih =>
    by_cases hc : isWS c = true
    · rw [List.dropWhile_cons_of_pos hc, wsTokens_cons_ws rest hc]
      exact ih
    · rw [List.dropWhile_cons_of_neg hc]

theorem rstrip_append (x y : Txt) :
    rstripWS (x ++ y) = if rstripWS y = [] then rstripWS x else x ++ rstripWS y := by
  induction x with
  | nil =>
    split
    next h => simpa using h
    next => rfl
  | cons c x' ih =>
    rw [List.cons_append, rstripWS, ih]
    split
    next h => rw [rstripWS]
    next h =>
      have hne : (x' ++ rstripWS y).isEmpty = false := by
        rcases hx : x' ++ rstripWS y with _ | _
        · exact absurd (List.append_eq_nil.mp hx).2 h
        · rfl
      simp [hne]

theorem rstrip_allws (m : Txt) (h : ∀ c ∈ m, isWS c = true) : rstripWS m = [] := by
  induction m with
  | nil => rfl
  | cons c rest ih =>
    rw [rstripWS, ih (fun x hx => h x (List.mem_cons_of_mem c hx))]
    simp [h c (List.mem_cons_self c rest)]

theorem rstrip_nonws (w : Txt) (hw : ∀ c ∈ w, isWS c = false) : rstripWS w = w := by
  induction w with
  | nil => rfl
  | cons c rest ih =>
    rw [rstripWS, ih (fun x hx => hw x (List.mem_cons_of_mem c hx))]
    simp [hw c (List.mem_cons_self c rest)]

theorem rstrip_idem (l : Txt) : rstripWS (rstripWS l) = rstripWS l := by
  induction l with
  | nil => rfl
  | cons c rest ih =>
    rw [rstripWS]
    split
    next => rfl
    next h =>
      rw [rstripWS, ih]
      simp [h]

theorem wsTokens_rstrip_aux :
    ∀ n : Nat, ∀ l : Txt, l.length ≤ n → wsTokens (rstripWS l) = wsTokens l := by
  intro n
  induction n using Nat.strong_induction_on with
  | _ n ih =>
    intro l hl
    match l with
    | [] => rfl
    | c :: rest =>
      match n, hl with
      | n' + 1, hl =>
        have hrest : rest.length ≤ n' := by simpa using Nat.le_of_succ_le_succ hl
        by_cases hc : isWS c = true
        · rw [rstripWS]
          split
          next h =>
            rw [Bool.and_eq_true] at h
            have h1 : rstripWS rest = [] := List.isEmpty_iff.mp h.1
            have h2 := ih n' (Nat.lt_succ_self n') rest hrest
            rw [h1] at h2
            rw [wsTokens_cons_ws rest hc, ← h2]
          next h =>
            rw [wsTokens_cons_ws _ hc, wsTokens_cons_ws rest hc]
            exact ih n' (Nat.lt_succ_self n') rest hrest
        · rw [Bool.not_eq_true] at hc
          have hw : ∀ x ∈ c :: rest.takeWhile (fun y => !isWS y), isWS x = false := by
            intro x hx
            rcases List.mem_cons.mp hx with rfl | hx2
            · exact hc
            · simpa using mem_takeWhile_pred hx2
          have hlm : c :: rest = (c :: rest.takeWhile (fun y => !isWS y)) ++
              rest.dropWhile (fun y => !isWS y) := by
            rw [List.cons_append, List.takeWhile_append_dropWhile]
          have hmtw : (rest.dropWhile (fun y => !isWS y)).takeWhile (fun y => !isWS y) = [] :=
            takeWhile_dropWhile_nil _ rest
          have hmlen : (rest.dropWhile (fun y => !isWS y)).length ≤ n' :=
            Nat.le_trans (length_dropWhile_le _ rest) hrest
          rw [hlm, rstrip_append]
          split
          next hre =>
            have hm0 : wsTokens (rest.dropWhile (fun y => !isWS y)) = [] := by
              have h2 := ih n' (Nat.lt_succ_self n') _ hmlen
              rw [hre] at h2
              exact h2.symm
            rw [rstrip_nonws _ hw,
              wsTokens_word_append _ _ (List.cons_ne_nil _ _) hw hmtw, hm0]
            have h3 := wsTokens_word_append (c :: rest.takeWhile (fun y => !isWS y)) []
              (List.cons_ne_nil _ _) hw rfl
            rw [List.append_nil] at h3
            rw [h3]
            rfl
          next hre =>
            rw [wsTokens_word_append _ _ (List.cons_ne_nil _ _) hw
                (takeWhile_rstrip_nil hmtw),
              wsTokens_word_append _ _ (List.cons_ne_nil _ _) hw hmtw,
              ih n' (Nat.lt_succ_self n') _ hmlen]

theorem wsTokens_rstrip (l : Txt) : wsTokens (rstripWS l) = wsTokens l :=
  wsTokens_rstrip_aux l.length l Nat.le.refl

theorem wsTokens_strip (l : Txt) : wsTokens (stripWS l) = wsTokens l := by
  rw [stripWS, wsTokens_rstrip, wsTokens_dropWhile_ws]

/-- On inputs with no leading and no trailing whitespace, collapsing
whitespace runs produces exactly the single-space join of the words. -/
theorem collapse_canon :
    ∀ n : Nat, ∀ l : Txt, l.length ≤ n → l.dropWhile isWS = l → rstripWS l = l →
      collapseWS l = joinWords (wsTokens l) := by
  intro n
  induction n using Nat.strong_induction_on with
  | _ n ih =>
    intro l hl hlead htrail
    match l with
    | [] => rfl
    | c :: rest =>
      match n, hl with
      | n' + 1, hl =>
        have hrest : rest.length ≤ n' := by simpa using Nat.le_of_succ_le_succ hl
        have hc : isWS c = false := by
          by_contra hcc
          rw [Bool.not_eq_false] at hcc
          rw [List.dropWhile_cons_of_pos hcc] at hlead
          have := congrArg List.length hlead
          have h2 := length_dropWhile_le isWS rest
          simp only [List.length_cons] at this
          omega
        have hw : ∀ x ∈ c :: rest.takeWhile (fun y => !isWS y), isWS x = false := by
          intro x hx
          rcases List.mem_cons.mp hx with rfl | hx2
          · exact hc
          · simpa using mem_takeWhile_pred hx2
        have hlm : c :: rest = (c :: rest.takeWhile (fun y => !isWS y)) ++
            rest.dropWhile (fun y => !isWS y) := by
          rw [List.cons_append, List.takeWhile_append_dropWhile]
        have hmtw : (rest.dropWhile (fun y => !isWS y)).takeWhile (fun y => !isWS y) = [] :=
          takeWhile_dropWhile_nil _ rest
        have hmlen : (rest.dropWhile (fun y => !isWS y)).length ≤ n' :=
          Nat.le_trans (length_dropWhile_le _ rest) hrest
        rw [hlm, collapseWS_word _ _ hw,
          wsTokens_word_append _ _ (List.cons_ne_nil _ _) hw hmtw]
        rcases hm : rest.dropWhile (fun y => !isWS y) with _ | ⟨e, m2⟩
        · simp [collapseWS, joinWords, wsTokens, tokensF]
        · have he : isWS e = true := by
            rw [hm] at hmtw
            by_contra hee
            rw [Bool.not_eq_true] at hee
            rw [List.takeWhile_cons_of_pos (by simp [hee])] at hmtw
            cases hmtw
          have hrun : ∀ x ∈ (e :: m2).takeWhile isWS, isWS x = true :=
            fun x hx => mem_takeWhile_pred hx
          have hrunne : (e :: m2).takeWhile isWS ≠ [] := by
            rw [List.takeWhile_cons_of_pos he]
            exact List.cons_ne_nil _ _
          have hm3tw : ((e :: m2).dropWhile isWS).takeWhile isWS = [] :=
            takeWhile_dropWhile_nil isWS (e :: m2)
          have hmm : (e :: m2) = (e :: m2).takeWhile isWS ++ (e :: m2).dropWhile isWS :=
            (List.takeWhile_append_dropWhile isWS (e :: m2)).symm
          -- the trailing-strip fixed point forces a non-whitespace tail
          have htr2 : rstripWS (e :: m2) = e :: m2 := by
            rw [hlm, hm, rstrip_append] at htrail
            rcases hsp : rstripWS (e :: m2) with _ | _
            · rw [hsp, if_pos rfl, rstrip_nonws _ hw] at htrail
              have := congrArg List.length htrail
              simp at this
            · rw [hsp] at htrail
              rw [if_neg (by simp [hsp])] at htrail
              have := List.append_cancel_left htrail
              exact this
          rcases hm3 : (e :: m2).dropWhile isWS with _ | ⟨e2, m4⟩
          · exfalso
            have hallws : ∀ x ∈ e :: m2, isWS x = true := by
              intro x hx
              have hx2 : x ∈ (e :: m2).takeWhile isWS := by
                rw [hmm, hm3, List.append_nil] at hx
                exact hx
              exact mem_takeWhile_pred hx2
            rw [rstrip_allws _ hallws] at htr2
            cases htr2
          · have he2 : isWS e2 = false := by
              rw [hm3] at hm3tw
              by_contra hee
              rw [Bool.not_eq_false] at hee
              rw [List.takeWhile_cons_of_pos hee] at hm3tw
              cases hm3tw
            have hcoll : collapseWS (e :: m2) = ' ' :: collapseWS (e2 :: m4) := by
              conv_lhs => rw [hmm, hm3]
              exact collapseWS_ws_append _ hrunne hrun e2 he2 m4
            have htok : wsTokens (e :: m2) = wsTokens (e2 :: m4) := by
              rw [← hm3, wsTokens_dropWhile_ws]
            have hlen3 : (e2 :: m4).length ≤ n' := by
              have h1 : (e2 :: m4).length ≤ (e :: m2).length := by
                rw [← hm3]
                exact length_dropWhile_le isWS (e :: m2)
              have h2 : (e :: m2).length ≤ rest.length := by
                rw [← hm]
                exact length_dropWhile_le _ rest
              omega
            have hlead3 : (e2 :: m4).dropWhile isWS = e2 :: m4 := by
              rw [← hm3]
              exact dropWhile_idem isWS (e :: m2)
            have htrail3 : rstripWS (e2 :: m4) = e2 :: m4 := by
              have hr2eq : rstripWS (e :: m2) =
                  if rstripWS (e2 :: m4) = [] then rstripWS ((e :: m2).takeWhile isWS)
                  else (e :: m2).takeWhile isWS ++ rstripWS (e2 :: m4) := by
                conv_lhs => rw [hmm, hm3]
                exact rstrip_append _ _
              rcases hsp : rstripWS (e2 :: m4) with _ | ⟨h1, t1⟩
              · exfalso
                rw [htr2, hsp, if_pos rfl, rstrip_allws _ hrun] at hr2eq
                cases hr2eq
              · rw [htr2, hsp, if_neg (by simp)] at hr2eq
                have h9 := List.append_cancel_left (hmm.symm.trans hr2eq)
                exact (hm3.symm.trans h9).symm
            have hihm := ih n' (Nat.lt_succ_self n') (e2 :: m4) hlen3 hlead3 htrail3
            rw [hcoll, hihm, htok]
            rcases htk : wsTokens (e2 :: m4) with _ | ⟨t, ts⟩
            · exfalso
              rw [wsTokens_cons_nonws m4 he2] at htk
              cases htk
            · rw [joinWords]

/-- The grouping-key normalization equals the single-space join of the
whitespace-delimited words. -/
theorem normString_data (s : String) :
    (normString s).data = joinWords (wsTokens s.data) := by
  have h1 : (stripWS s.data).dropWhile isWS = stripWS s.data := by
    rw [stripWS]
    have hy : (s.data.dropWhile isWS).dropWhile isWS = s.data.dropWhile isWS :=
      dropWhile_idem isWS s.data
    rcases hz : rstripWS (s.data.dropWhile isWS) with _ | ⟨c, z⟩
    · rfl
    · have hcz : isWS c = false := by
        rcases hdw : s.data.dropWhile isWS with _ | ⟨c0, z0⟩
        · rw [hdw] at hz; cases hz
        · have hc0 : isWS c0 = false := by
            by_contra hcc
            rw [Bool.not_eq_false] at hcc
            rw [hdw, List.dropWhile_cons_of_pos hcc] at hy
            have := congrArg List.length hy
            have h2 := length_dropWhile_le isWS z0
            simp only [List.length_cons] at this
            omega
          rw [hdw, rstripWS] at hz
          split at hz
          · cases hz
          · rw [List.cons.injEq] at hz
            rw [← hz.1]
            exact hc0
      rw [List.dropWhile_cons_of_neg (by simp [hcz])]
  have h2 : rstripWS (stripWS s.data) = stripWS s.data := by
    rw [stripWS]
    exact rstrip_idem _
  have h3 := collapse_canon (stripWS s.data).length (stripWS s.data)
    Nat.le.refl h1 h2
  show collapseWS (stripWS s.data) = _
  rw [h3, wsTokens_strip]

theorem wsTokens_wf :
    ∀ n : Nat, ∀ l : Txt, l.length ≤ n →
      ∀ w ∈ wsTokens l, w ≠ [] ∧ ∀ c ∈ w, isWS c = false := by
  intro n
  induction n using Nat.strong_induction_on with
  | _ n ih =>
    intro l hl w hw
    match l with
    | [] => cases hw
    | c :: rest =>
      match n, hl with
      | n' + 1, hl =>
        have hrest : rest.length ≤ n' := by simpa using Nat.le_of_succ_le_succ hl
        by_cases hc : isWS c = true
        · rw [wsTokens_cons_ws rest hc] at hw
          exact ih n' (Nat.lt_succ_self n') rest hrest w hw
        · rw [Bool.not_eq_true] at hc
          rw [wsTokens_cons_nonws rest hc] at hw
          rcases List.mem_cons.mp hw with rfl | hw2
          · refine ⟨List.cons_ne_nil _ _, ?_⟩
            intro x hx
            rcases List.mem_cons.mp hx with rfl | hx2
            · exact hc
            · simpa using mem_takeWhile_pred hx2
          · exact ih n' (Nat.lt_succ_self n') _
              (Nat.le_trans (length_dropWhile_le _ rest) hrest) w hw2

theorem wsTokens_joinWords :
    ∀ ws : List Txt, (∀ w ∈ ws, w ≠ [] ∧ ∀ c ∈ w, isWS c = false) →
      wsTokens (joinWords ws) = ws := by
  intro ws
  induction ws with
  | nil => intro _; rfl
  | cons w ws ih =>
    intro hwf
    obtain ⟨hw1, hw2⟩ := hwf w (List.mem_cons_self w ws)
    cases ws with
    | nil =>
      rw [joinWords]
      have h := wsTokens_word_append w [] hw1 hw2 rfl
      rw [List.append_nil] at h
      rw [h]
      rfl
    | cons w2 ws' =>
      rw [joinWords]
      have hm : (' ' :: joinWords (w2 :: ws')).takeWhile (fun y => !isWS y) = [] := by
        rw [List.takeWhile_cons_of_neg]
        simp [isWS]
      rw [wsTokens_word_append w _ hw1 hw2 hm,
        wsTokens_cons_ws _ (by simp [isWS]),
        ih (fun x hx => hwf x (List.mem_cons_of_mem w hx))]

theorem lookup_map_norm (c : String) :
    ∀ fs : List (String × Option String),
      List.lookup c (fs.map (fun kv =>
        if kv.1 = c then (kv.1, some (normString (kv.2.getD ""))) else kv)) =
      (List.lookup c fs).map (fun v => some (normString (v.getD ""))) := by
  intro fs
  induction fs with
  | nil => rfl
  | cons kv fs ih =>
    rcases kv with ⟨k0, v0⟩
    by_cases hk : k0 = c
    · subst hk
      rw [List.map_cons, if_pos rfl]
      simp [List.lookup]
    · rw [List.map_cons, if_neg hk]
      simp only [List.lookup,
        show (c == k0) = false from beq_eq_false_iff_ne.mpr (fun h => hk h.symm)]
      exact ih

theorem ringVal_setRing (c : String) (r : Rec) :
    ringVal c (setRing c r) = normString (ringRaw c r) := by
  obtain ⟨fs⟩ := r
  rw [ringVal, setRing, ringRaw]
  simp only
  rw [lookup_map_norm c fs]
  cases h : List.lookup c fs with
  | none => decide
  | some v => rfl

/-- Claim C4: the grouping-key normalization (strip, then collapse
internal whitespace runs) is idempotent; two keys with the same
whitespace-delimited words (differing only in internal run length or
surrounding whitespace) normalize identically; and two records whose
raw grouping-key cells have the same words land in the same group of
`group_records`. -/
theorem claim4_normalization :
    (∀ s : String, normString (normString s) = normString s) ∧
    (∀ s t : String, wsTokens s.data = wsTokens t.data → normString s = normString t) ∧
    (∀ (c : String) (rows : List Rec) (r1 r2 : Rec) (g : String × List Rec),
        wsTokens (ringRaw c r1).data = wsTokens (ringRaw c r2).data →
        g ∈ group_records c rows → setRing c r1 ∈ g.2 → r2 ∈ rows →
        setRing c r2 ∈ g.2) := by
  have hb : ∀ s t : String, wsTokens s.data = wsTokens t.data →
      normString s = normString t := by
    intro s t h
    apply String.ext
    rw [normString_data, normString_data, h]
  refine ⟨?_, hb, ?_⟩
  · intro s
    apply hb
    rw [normString_data]
    exact wsTokens_joinWords (wsTokens s.data)
      (wsTokens_wf s.data.length s.data Nat.le.refl)
  · intro c rows r1 r2 g htok hg hr1 hr2
    rw [group_records] at hg
    obtain ⟨k, hk, rfl⟩ := List.mem_map.mp hg
    have h1 : ringVal c (setRing c r1) = k := by
      have := (List.mem_filter.mp hr1).2
      rwa [beq_iff_eq] at this
    have h2 : ringVal c (setRing c r2) = k := by
      rw [ringVal_setRing, ← hb _ _ htok, ← ringVal_setRing]
      exact h1
    refine List.mem_filter.mpr ⟨List.mem_map_of_mem _ hr2, ?_⟩
    rw [h2]
    exact beq_self_eq_true k

theorem claim4_normalization_wit :
    normString "Ring  A " = normString " Ring A" ∧
    normString (normString "Ring  A ") = normString "Ring  A " :=
  ⟨claim4_normalization.2.1 "Ring  A " " Ring A" (by decide),
   claim4_normalization.1 "Ring  A "⟩

/-! ## Grouping lemmas -/

theorem insertKey_perm (k : String) (ks : List String) :
    List.Perm (insertKey k ks) (k :: ks) := by
  induction ks with
  | nil => exact List.Perm.refl _
  | cons x xs ih =>
    rw [insertKey]
    split
    · exact List.Perm.refl _
    · exact (ih.cons x).trans (List.Perm.swap k x xs)

theorem sortKeys_perm (ks : List String) : List.Perm (sortKeys ks) ks := by
  induction ks with
  | nil => exact List.Perm.refl _
  | cons k ks ih => exact (insertKey_perm k (sortKeys ks)).trans (ih.cons k)

/-- Partitioning a list by a complete, duplicate-free key list and
concatenating the parts permutes the original list. -/
theorem join_filter_perm {α : Type} (key : α → String) :
    ∀ (ks : List String) (l : List α), ks.Nodup → (∀ x ∈ l, key x ∈ ks) →
      List.Perm (ks.map (fun k => l.filter (fun x => key x == k))).flatten l := by
  intro ks
  induction ks with
  | nil =>
    intro l _ hcov
    have : l = [] := List.eq_nil_iff_forall_not_mem.mpr
      (fun x hx => (List.not_mem_nil _) (hcov x hx))
    subst this
    exact List.Perm.refl _
  | cons k ks ih =>
    intro l hnd hcov
    rw [List.map_cons, List.flatten_cons]
    have hmap : ks.map (fun k' => l.filter (fun x => key x == k')) =
        ks.map (fun k' => (l.filter (fun x => !(key x == k))).filter
          (fun x => key x == k')) := by
      refine List.map_congr_left (fun k' hk' => ?_)
      rw [List.filter_filter]
      refine List.filter_congr (fun x _ => ?_)
      by_cases hx : key x = k'
      · have hkk : k' ≠ k := fun he => (List.nodup_cons.mp hnd).1 (he ▸ hk')
        have hkf : (key x == k) = false := by
          rw [beq_eq_false_iff_ne, hx]
          exact hkk
        simp [hx, hkf, hkk]
      · have hkf : (key x == k') = false := by rwa [beq_eq_false_iff_ne]
        simp [hkf]
    rw [hmap]
    have hcov2 : ∀ x ∈ l.filter (fun x => !(key x == k)), key x ∈ ks := by
      intro x hx
      obtain ⟨hxl, hxk⟩ := List.mem_filter.mp hx
      rcases List.mem_cons.mp (hcov x hxl) with he | hm
      · rw [Bool.not_eq_eq_eq_not, Bool.not_true, beq_eq_false_iff_ne] at hxk
        exact absurd he hxk
      · exact hm
    have hperm := ih (l.filter (fun x => !(key x == k)))
      (List.nodup_cons.mp hnd).2 hcov2
    exact ((hperm.append_left (l.filter (fun x => key x == k)))).trans
      (List.filter_append_perm _ l)

/-- Claim C3: grouping is a partition of the table as it stands when
`groupby` runs (every record of the normalized table lands in a group,
a record determines its group uniquely, and the concatenation of all
groups is a permutation of the normalized table — no record is dropped,
empty keys included). -/
theorem claim3_grouping_partition (c : String) (rows : List Rec) :
    (∀ r ∈ rows.map (setRing c), ∃ g ∈ group_records c rows, r ∈ g.2) ∧
    (∀ g ∈ group_records c rows, ∀ g' ∈ group_records c rows, ∀ r : Rec,
        r ∈ g.2 → r ∈ g'.2 → g = g') ∧
    List.Perm ((group_records c rows).map Prod.snd).flatten
      (rows.map (setRing c)) := by
  refine ⟨?_, ?_, ?_⟩
  · intro r hr
    have hk : ringVal c r ∈ sortKeys (((rows.map (setRing c)).map (ringVal c)).dedup) := by
      rw [(sortKeys_perm _).mem_iff, List.mem_dedup]
      exact List.mem_map_of_mem _ hr
    refine ⟨(ringVal c r, (rows.map (setRing c)).filter
        (fun r' => ringVal c r' == ringVal c r)), ?_, ?_⟩
    · rw [group_records]
      exact List.mem_map_of_mem _ hk
    · exact List.mem_filter.mpr ⟨hr, beq_self_eq_true _⟩
  · intro g hg g' hg' r hr hr'
    rw [group_records] at hg hg'
    obtain ⟨k, -, rfl⟩ := List.mem_map.mp hg
    obtain ⟨k', -, rfl⟩ := List.mem_map.mp hg'
    have h1 : ringVal c r = k := by
      have := (List.mem_filter.mp hr).2
      rwa [beq_iff_eq] at this
    have h2 : ringVal c r = k' := by
      have := (List.mem_filter.mp hr').2
      rwa [beq_iff_eq] at this
    rw [← h1, ← h2]
  · rw [group_records]
    simp only [List.map_map]
    have hmm : (Prod.snd ∘ fun k => (k, (rows.map (setRing c)).filter
        (fun r => ringVal c r == k))) = fun k => (rows.map (setRing c)).filter
        (fun r => ringVal c r == k) := rfl
    rw [hmm]
    refine join_filter_perm (ringVal c) _ _ ?_ ?_
    · exact (sortKeys_perm _).nodup_iff.mpr (List.nodup_dedup _)
    · intro x hx
      rw [(sortKeys_perm _).mem_iff, List.mem_dedup]
      obtain ⟨y, hy, rfl⟩ := List.mem_map.mp hx
      exact List.mem_map.mpr ⟨y, hy, rfl⟩

theorem claim3_grouping_partition_wit :
    ∃ g ∈ group_records "Ring" [wRecA, wRecB, wRecC], setRing "Ring" wRecA ∈ g.2 :=
  (claim3_grouping_partition "Ring" [wRecA, wRecB, wRecC]).1
    (setRing "Ring" wRecA) (by decide)

/-- Claim C5: materializing a located target table (which, by the
search, has at least one row) first clears every row below row 0 — the
code's header convention is exactly one header row — and then appends
one row per record, so the result has `1 + len(records)` rows and the
header row is untouched. -/
theorem claim5_materialize_rows (cols : List String) (recs : List Rec) (t : WTable)
    (h : t.rows ≠ []) :
    (materializeTable cols recs t).rows.length = 1 + recs.length ∧
    (materializeTable cols recs t).rows.head? = t.rows.head? := by
  have hlen : 1 ≤ t.rows.length := List.length_pos.mpr h
  constructor
  · rw [materializeTable]
    simp [List.length_take, List.enum_length, Nat.min_eq_left hlen]
  · rw [materializeTable]
    rcases htr : t.rows with _ | ⟨r0, rest⟩
    · exact absurd htr h
    · rfl

theorem claim5_materialize_rows_wit :
    (materializeTable ["Tower ID", "Hostname"] [wRecA, wRecC] wTable).rows.length =
      1 + ([wRecA, wRecC] : List Rec).length ∧
    (materializeTable ["Tower ID", "Hostname"] [wRecA, wRecC] wTable).rows.head? =
      wTable.rows.head? :=
  claim5_materialize_rows ["Tower ID", "Hostname"] [wRecA, wRecC] wTable (by decide)

/-- Claim C6 (amended): the derived title is the first record's title
cell whenever that cell is present and not NaN — including when it is
the empty string — and the fallback `Doc - {key}` is used exactly when
the cell is NaN or the column is absent.  A present-but-blank title is
used as-is, not replaced by the fallback (see the counterexample). -/
theorem claim6_derived_title (r : Rec) (titleCol key : String) :
    (∀ v : String, r.fields.lookup titleCol = some (some v) →
        derivedTitle r titleCol key = v) ∧
    (r.fields.lookup titleCol = some none →
        derivedTitle r titleCol key = "Doc - " ++ key) ∧
    (r.fields.lookup titleCol = none →
        derivedTitle r titleCol key = "Doc - " ++ key) := by
  refine ⟨?_, ?_, ?_⟩
  · intro v h
    rw [derivedTitle, h]
  · intro h
    rw [derivedTitle, h]
  · intro h
    rw [derivedTitle, h]

/-- Claim C6 counterexample: a record whose title cell holds the empty
string (present, blank) yields the empty title, not the synthesized
fallback. -/
theorem claim6_derived_title_cex :
    cexRecTitle.fields.lookup "Title" = some (some "") ∧
    derivedTitle cexRecTitle "Title" "K" = "" ∧
    derivedTitle cexRecTitle "Title" "K" ≠ "Doc - K" := by decide

theorem claim6_derived_title_wit :
    derivedTitle wRecC "Title" "Ring B" = "Doc - " ++ "Ring B" :=
  (claim6_derived_title wRecC "Title" "Ring B").2.1 (by decide)

/-- Claim C7 failing input evaluated: in a document with one table, one
row and two cells that each contain the topology-image placeholder, the
insertion block embeds two pictures — the cell loop has no
`image_inserted` guard — contradicting the at-most-one-picture claim. -/
theorem claim7_single_image_bug :
    picCount (insertTopoImage cexIDoc) = 2 ∧ ¬ picCount (insertTopoImage cexIDoc) ≤ 1 := by
  decide

/-- Claim C8: when required columns are missing, the pipeline stops
before producing anything: no archive, no documents, the missing-column
list reported, count zero. -/
theorem claim8_schema_error (cfg : ScopeCfg) (headers : List String) (rows : List Rec)
    (tables : List WTable) (h : missingCols cfg headers ≠ []) :
    generate_documents cfg headers rows tables =
      ⟨none, [], some (missingCols cfg headers), 0⟩ := by
  have hne : ¬ ((missingCols cfg headers).isEmpty = true) := by
    rw [List.isEmpty_iff]
    exact h
  rw [generate_documents, if_neg hne]

theorem claim8_schema_error_wit :
    missingCols wCfg ["Ring"] ≠ [] ∧
    generate_documents wCfg ["Ring"] [wRecA] [wTable] =
      ⟨none, [], some (missingCols wCfg ["Ring"]), 0⟩ :=
  ⟨by decide, claim8_schema_error wCfg ["Ring"] [wRecA] [wTable] (by decide)⟩

/-! ## Nearest C/AG lemmas -/

theorem scanLeftAux_some (hosts : List String) (pos : Nat) :
    ∀ i d c, scanLeftAux hosts pos i = some (d, c) →
      ∃ j, j < i ∧ isCag (hosts.getD j "") = true ∧ d = pos - j ∧ c = hosts.getD j "" := by
  intro i
  induction i with
  | zero => intro d c h; cases h
  | succ i ih =>
    intro d c h
    rw [scanLeftAux] at h
    split at h
    next hc =>
      have h2 := Option.some.inj h
      exact ⟨i, Nat.lt_succ_self i, hc, (congrArg Prod.fst h2).symm,
        (congrArg Prod.snd h2).symm⟩
    next hc =>
      obtain ⟨j, hj, hrest⟩ := ih d c h
      exact ⟨j, Nat.lt_succ_of_lt hj, hrest⟩

theorem scanLeftAux_none (hosts : List String) (pos : Nat) :
    ∀ i, (∀ j, j < i → isCag (hosts.getD j "") = false) →
      scanLeftAux hosts pos i = none := by
  intro i
  induction i with
  | zero => intro _; rfl
  | succ i ih =>
    intro h
    rw [scanLeftAux]
    split
    next hc =>
      rw [h i (Nat.lt_succ_self i)] at hc
      cases hc
    next =>
      exact ih (fun j hj => h j (Nat.lt_succ_of_lt hj))

theorem scanLeftAux_found (hosts : List String) (pos : Nat) :
    ∀ i j, j < i → isCag (hosts.getD j "") = true →
      (∀ k, j < k → k < i → isCag (hosts.getD k "") = false) →
      scanLeftAux hosts pos i = some (pos - j, hosts.getD j "") := by
  intro i
  induction i with
  | zero => intro j hj; omega
  | succ i ih =>
    intro j hj hcag hgap
    by_cases hji : j = i
    · subst hji
      rw [scanLeftAux, if_pos hcag]
    · have hj' : j < i := by omega
      rw [scanLeftAux]
      rw [if_neg (by rw [hgap i hj' (Nat.lt_succ_self i)]; simp)]
      exact ih j hj' hcag (fun k h1 h2 => hgap k h1 (Nat.lt_succ_of_lt h2))

theorem scanRightAux_some (hosts : List String) (pos : Nat) :
    ∀ fuel i d c, scanRightAux hosts pos fuel i = some (d, c) →
      ∃ j, i ≤ j ∧ j < hosts.length ∧ isCag (hosts.getD j "") = true ∧
        d = j - pos ∧ c = hosts.getD j "" := by
  intro fuel
  induction fuel with
  | zero => intro i d c h; cases h
  | succ fuel ih =>
    intro i d c h
    rw [scanRightAux] at h
    split at h
    next hlt =>
      split at h
      next hc =>
        have h2 := Option.some.inj h
        exact ⟨i, Nat.le.refl, hlt, hc, (congrArg Prod.fst h2).symm,
          (congrArg Prod.snd h2).symm⟩
      next hc =>
        obtain ⟨j, hj1, hrest⟩ := ih (i + 1) d c h
        exact ⟨j, Nat.le_of_succ_le hj1, hrest⟩
    next => cases h

theorem scanRightAux_none (hosts : List String) (pos : Nat) :
    ∀ fuel i, (∀ j, i ≤ j → j < hosts.length → isCag (hosts.getD j "") = false) →
      scanRightAux hosts pos fuel i = none := by
  intro fuel
  induction fuel with
  | zero => intro _ _; rfl
  | succ fuel ih =>
    intro i h
    rw [scanRightAux]
    split
    next hlt =>
      rw [if_neg (by rw [h i Nat.le.refl hlt]; simp)]
      exact ih (i + 1) (fun j hj => h j (Nat.le_of_succ_le hj))
    next => rfl

theorem scanRightAux_found (hosts : List String) (pos : Nat) :
    ∀ fuel i j, i ≤ j → j < hosts.length → hosts.length ≤ fuel + i →
      isCag (hosts.getD j "") = true →
      (∀ k, i ≤ k → k < j → isCag (hosts.getD k "") = false) →
      scanRightAux hosts pos fuel i = some (j - pos, hosts.getD j "") := by
  intro fuel
  induction fuel with
  | zero => intro i j h1 h2 h3; omega
  | succ fuel ih =>
    intro i j h1 h2 h3 hcag hgap
    have hilt : i < hosts.length := Nat.lt_of_le_of_lt h1 h2
    rw [scanRightAux, if_pos hilt]
    by_cases hij : i = j
    · subst hij
      rw [if_pos hcag]
    · have hij' : i < j := by omega
      rw [if_neg (by rw [hgap i Nat.le.refl hij']; simp)]
      exact ih (i + 1) j hij' h2 (by omega) hcag (fun k hk1 hk2 => hgap k (by omega) hk2)

/-- The bidirectional scan with left tie-break computes the
distance-order search of the spec. -/
theorem spec_combine (hosts : List String) (pos : Nat) (hpos : pos < hosts.length) :
    ∀ fuel d, 1 ≤ d → fuel + d = hosts.length + 1 →
      (∀ e, 1 ≤ e → e < d →
        (pos ≥ e → isCag (hosts.getD (pos - e) "") = false) ∧
        (pos + e < hosts.length → isCag (hosts.getD (pos + e) "") = false)) →
      nearestCagSpecAux hosts pos fuel d =
        (match scanLeft hosts pos, scanRight hosts pos with
         | some (ld, lc), some (rd, rc) => if ld ≤ rd then some lc else some rc
         | some (_, lc), none => some lc
         | none, some (_, rc) => some rc
         | none, none => none) := by
  intro fuel
  induction fuel with
  | zero =>
    intro d hd hfd hinv
    have hsl : scanLeft hosts pos = none := by
      rw [scanLeft]
      refine scanLeftAux_none hosts pos pos (fun j hj => ?_)
      have h1 := (hinv (pos - j) (by omega) (by omega)).1 (by omega)
      rw [show pos - (pos - j) = j by omega] at h1
      exact h1
    have hsr : scanRight hosts pos = none := by
      rw [scanRight]
      refine scanRightAux_none hosts pos hosts.length (pos + 1) (fun j hj1 hj2 => ?_)
      have h1 := (hinv (j - pos) (by omega) (by omega)).2 (by omega)
      rw [show pos + (j - pos) = j by omega] at h1
      exact h1
    rw [hsl, hsr]
    rfl
  | succ fuel ih =>
    intro d hd hfd hinv
    rw [nearestCagSpecAux]
    by_cases hA : pos ≥ d ∧ isCag (hosts.getD (pos - d) "") = true
    · rw [if_pos hA]
      have hsl : scanLeft hosts pos = some (d, hosts.getD (pos - d) "") := by
        rw [scanLeft]
        have hfound := scanLeftAux_found hosts pos pos (pos - d) (by omega) hA.2
          (fun k hk1 hk2 => by
            have h1 := (hinv (pos - k) (by omega) (by omega)).1 (by omega)
            rw [show pos - (pos - k) = k by omega] at h1
            exact h1)
        rw [show pos - (pos - d) = d by omega] at hfound
        exact hfound
      rcases hsr : scanRight hosts pos with _ | ⟨rd, rc⟩
      · simp only [hsl]
      · obtain ⟨j, hj1, hj2, hj3, hj4, hj5⟩ :=
          scanRightAux_some hosts pos hosts.length (pos + 1) rd rc hsr
        have hrd : d ≤ rd := by
          by_contra hlt
          have h1 := (hinv rd (by omega) (by omega)).2 (by omega)
          rw [show pos + rd = j by omega, ← hj5] at h1
          rw [← hj5] at hj3
          rw [h1] at hj3
          cases hj3
        simp only [hsl]
        rw [if_pos hrd]
    · rw [if_neg hA]
      by_cases hB : pos + d < hosts.length ∧ isCag (hosts.getD (pos + d) "") = true
      · rw [if_pos hB]
        have hsr : scanRight hosts pos = some (d, hosts.getD (pos + d) "") := by
          rw [scanRight]
          have hfound := scanRightAux_found hosts pos hosts.length (pos + 1) (pos + d)
            (by omega) hB.1 (by omega) hB.2
            (fun k hk1 hk2 => by
              have h1 := (hinv (k - pos) (by omega) (by omega)).2 (by omega)
              rw [show pos + (k - pos) = k by omega] at h1
              exact h1)
          rw [show pos + d - pos = d by omega] at hfound
          exact hfound
        rcases hsl : scanLeft hosts pos with _ | ⟨ld, lc⟩
        · simp only [hsr]
        · obtain ⟨j, hj1, hj2, hj3, hj4⟩ :=
            scanLeftAux_some hosts pos pos ld lc hsl
          have hld : ¬ ld ≤ d := by
            intro hle
            rcases Nat.lt_or_ge ld d with hlt | hge
            · have h1 := (hinv ld (by omega) hlt).1 (by omega)
              rw [show pos - ld = j by omega, ← hj4] at h1
              rw [← hj4] at hj2
              rw [h1] at hj2
              cases hj2
            · have hde : ld = d := by omega
              refine hA ⟨by omega, ?_⟩
              rw [show pos - d = j by omega, ← hj4]
              rw [hj4]
              exact hj2
          simp only [hsr]
          rw [if_neg hld]
      · rw [if_neg hB]
        refine ih (d + 1) (by omega) (by omega) (fun e he1 he2 => ?_)
        by_cases hed : e = d
        · subst hed
          constructor
          · intro hpe
            by_contra hcc
            rw [Bool.not_eq_false] at hcc
            exact hA ⟨hpe, hcc⟩
          · intro hpe
            by_contra hcc
            rw [Bool.not_eq_false] at hcc
            exact hB ⟨hpe, hcc⟩
        · exact hinv e he1 (by omega)

theorem findPos_of_mem (pag : String) :
    ∀ hosts : List String, pag ∈ hosts →
      ∃ pos, findPos pag hosts = some pos ∧ pos < hosts.length := by
  intro hosts
  induction hosts with
  | nil => intro h; cases h
  | cons h0 t ih =>
    intro hm
    by_cases he : h0 = pag
    · exact ⟨0, by rw [findPos, if_pos he], by simp⟩
    · have hm2 : pag ∈ t := by
        rcases List.mem_cons.mp hm with rfl | h2
        · exact absurd rfl he
        · exact h2
      obtain ⟨p, hp, hlt⟩ := ih hm2
      refine ⟨p + 1, ?_, by simpa using Nat.succ_lt_succ hlt⟩
      rw [findPos, if_neg he, hp]
      rfl

/-- Claim C9: for a chain that contains the queried PAG hostname, the
per-chain search of `find_nearest_cag` (scan left and right, return the
nearer `AG-`/`C-` candidate, left on ties) agrees with the spec-level
description `nearestCagSpec` (closest candidate by distance, left
preferred at equal distance). -/
theorem claim9_nearest_cag (chain pag : String) (h : pag ∈ parseChain chain) :
    find_nearest_cag pag [chain] = nearestCagSpec pag (parseChain chain) := by
  have hchain : chain ≠ "" := by
    intro he
    have hpc : parseChain "" = [] := by decide
    rw [he, hpc] at h
    exact absurd h (List.not_mem_nil pag)
  rw [find_nearest_cag, if_neg hchain]
  obtain ⟨pos, hpos, hlt⟩ := findPos_of_mem pag (parseChain chain) h
  have hmain : nearestCagInChain pag (parseChain chain) =
      nearestCagSpec pag (parseChain chain) := by
    rw [nearestCagInChain, nearestCagSpec, hpos]
    exact (spec_combine (parseChain chain) pos hlt (parseChain chain).length 1
      Nat.le.refl rfl (fun e he1 he2 => by omega)).symm
  rw [hmain]
  rcases nearestCagSpec pag (parseChain chain) with _ | c
  · rfl
  · rfl

theorem claim9_nearest_cag_wit :
    "PAG-7" ∈ parseChain "AG-1, PAG-7, C-2" ∧
    find_nearest_cag "PAG-7" ["AG-1, PAG-7, C-2"] =
      nearestCagSpec "PAG-7" (parseChain "AG-1, PAG-7, C-2") :=
  ⟨by decide, claim9_nearest_cag "AG-1, PAG-7, C-2" "PAG-7" (by decide)⟩

/-! ## Auto-fill lemmas -/

theorem getD_out (l : List String) (n : Nat) (h : l.length ≤ n) : l.getD n "" = "" := by
  rw [List.getD_eq_getElem?_getD, List.getElem?_eq_none h]
  rfl

theorem autofillRow_src_eq (si : Nat) (row : List String) :
    (if si < row.length then stripStr (row.getD si "") else "") =
      stripStr (row.getD si "") := by
  split
  · rfl
  next h =>
    rw [getD_out row si (Nat.le_of_not_lt h)]
    rfl

theorem autofillRow_eq (lookup : List (String × String)) (si ti : Nat)
    (row : List String) :
    autofillRow lookup si ti row =
      (if stripStr (row.getD si "") = "" ∨
          lowerStr (stripStr (row.getD si "")) = "nan" then row
       else if stripStr (row.getD ti "") ≠ "" ∧
          lowerStr (stripStr (row.getD ti "")) ≠ "nan" then row
       else match List.lookup (lowerStr (stripStr (row.getD si ""))) lookup with
         | some v => if v ≠ "" then (padTo row ti).set ti v else row
         | none => row) := by
  simp only [autofillRow, autofillRow_src_eq]

theorem autofillRow_frame (lookup : List (String × String)) (si ti : Nat)
    (row : List String) :
    ((stripStr (row.getD ti "") ≠ "" ∧ lowerStr (stripStr (row.getD ti "")) ≠ "nan") →
      autofillRow lookup si ti row = row) ∧
    (autofillRow lookup si ti row ≠ row →
      (stripStr (row.getD ti "") = "" ∨ lowerStr (stripStr (row.getD ti "")) = "nan") ∧
      ∃ v, List.lookup (lowerStr (stripStr (row.getD si ""))) lookup = some v ∧ v ≠ "") := by
  rw [autofillRow_eq]
  by_cases hs : stripStr (row.getD si "") = "" ∨
      lowerStr (stripStr (row.getD si "")) = "nan"
  · rw [if_pos hs]
    exact ⟨fun _ => rfl, fun hne => absurd rfl hne⟩
  · rw [if_neg hs]
    by_cases ht : stripStr (row.getD ti "") ≠ "" ∧
        lowerStr (stripStr (row.getD ti "")) ≠ "nan"
    · rw [if_pos ht]
      exact ⟨fun _ => rfl, fun hne => absurd rfl hne⟩
    · rw [if_neg ht]
      refine ⟨fun hcon => absurd hcon ht, fun hne => ?_⟩
      have htgt : stripStr (row.getD ti "") = "" ∨
          lowerStr (stripStr (row.getD ti "")) = "nan" := by
        by_contra hcc
        push_neg at hcc
        exact ht ⟨hcc.1, hcc.2⟩
      refine ⟨htgt, ?_⟩
      rcases hlk : List.lookup (lowerStr (stripStr (row.getD si ""))) lookup with _ | v
      · simp only [hlk] at hne
        exact absurd rfl hne
      · simp only [hlk] at hne
        refine ⟨v, rfl, ?_⟩
        intro hv
        rw [if_neg (by simp [hv])] at hne
        exact hne rfl

/-- Claim C10 (amended): neither auto-fill route touches a row whose
target cell trims to a non-empty value other than case-insensitive
`nan`; and a row is modified only when its target cell trims to empty
or case-insensitive `nan` and the lookup of the trimmed, lower-cased
source cell yields a non-empty value. -/
theorem claim10_autofill_no_overwrite (lookup : List (String × String)) (si ti : Nat)
    (rows : List (List String)) (i : Nat) (h : i < rows.length) :
    ((stripStr ((rows.getD i []).getD ti "") ≠ "" ∧
        lowerStr (stripStr ((rows.getD i []).getD ti "")) ≠ "nan") →
      (api_excel_autofill_ring lookup si ti rows).getD i [] = rows.getD i [] ∧
      (api_excel_autofill_hostname lookup si ti rows).getD i [] = rows.getD i []) ∧
    ((api_excel_autofill_ring lookup si ti rows).getD i [] ≠ rows.getD i [] ∨
        (api_excel_autofill_hostname lookup si ti rows).getD i [] ≠ rows.getD i [] →
      (stripStr ((rows.getD i []).getD ti "") = "" ∨
        lowerStr (stripStr ((rows.getD i []).getD ti "")) = "nan") ∧
      ∃ v, List.lookup (lowerStr (stripStr ((rows.getD i []).getD si ""))) lookup = some v ∧
        v ≠ "") := by
  have hget : ∀ f : List String → List String,
      (rows.map f).getD i [] = f (rows.getD i []) := by
    intro f
    rw [List.getD_eq_getElem?_getD, List.getD_eq_getElem?_getD, List.getElem?_map,
      List.getElem?_eq_getElem h]
    rfl
  obtain ⟨hf1, hf2⟩ := autofillRow_frame lookup si ti (rows.getD i [])
  rw [api_excel_autofill_ring, api_excel_autofill_hostname, hget]
  constructor
  · intro hh
    exact ⟨hf1 hh, hf1 hh⟩
  · intro hh
    rcases hh with hh | hh <;> exact hf2 hh

/-- Claim C10 counterexample: a target cell holding `"NaN"` — non-empty
and different from the literal token `"nan"` — is overwritten by the
auto-fill, because the code compares case-insensitively. -/
theorem claim10_autofill_no_overwrite_cex :
    api_excel_autofill_ring [("host1", "RingX")] 0 1 [["host1", "NaN"]] =
      [["host1", "RingX"]] ∧
    ("NaN" : String) ≠ "" ∧ ("NaN" : String) ≠ "nan" := by decide

theorem claim10_autofill_no_overwrite_wit :
    (api_excel_autofill_ring [("host1", "RingX")] 0 1 [["host1", "keep"]]).getD 0 [] =
      ([["host1", "keep"]] : List (List String)).getD 0 [] ∧
    (api_excel_autofill_hostname [("host1", "RingX")] 0 1 [["host1", "keep"]]).getD 0 [] =
      ([["host1", "keep"]] : List (List String)).getD 0 [] :=
  (claim10_autofill_no_overwrite [("host1", "RingX")] 0 1 [["host1", "keep"]] 0
    (by decide)).1 (by decide)

theorem claim2_split_span_wit :
    (replace_placeholder_in_paragraph docTitlePh xRep witPara).2 = true ∧
    (replace_placeholder_in_paragraph docTitlePh xRep witPara).1.runs.length =
      witPara.runs.length ∧
    paraText (replace_placeholder_in_paragraph docTitlePh xRep witPara).1 =
      replaceAll docTitlePh xRep (paraText witPara) ∧
    (replace_placeholder_in_paragraph docTitlePh xRep witPara).1.runs.head? =
      some (replaceAll docTitlePh xRep (paraText witPara)) ∧
    ∀ t ∈ (replace_placeholder_in_paragraph docTitlePh xRep witPara).1.runs.tail,
      t = [] :=
  claim2_split_span witPara docTitlePh xRep
    ⟨0, "\x7b\x7bDOC".toList, "LE\x7d\x7d".toList, by decide⟩ (by decide)

end AdminAuto
